import Mathlib

/-!
Verification of the `publish-gist.py` markdown/image pipeline.

The script's pure text-processing core is embedded over `List Char`:
regex-based extraction of image references (`find_local_image_refs`),
filename sanitization (`sanitize_filename`), path resolution and the
rewrite-map construction from `main`, raw-URL construction
(`urllib.parse.quote`) and the regex substitutions that rewrite image
references to raw gist URLs.  Scanners use an explicit fuel argument
(always called with fuel at least the input length) so that every
definition is structurally recursive and computable by `decide`.
-/

namespace PublishGist

abbrev Chars := List Char

/-- Coerce a string literal to the `List Char` representation used throughout. -/
def str (s : String) : Chars := s.data

/-- `p` is a leading segment of `s` (Python `str.startswith` on one argument;
also used componentwise for the `commonpath` test). -/
def listStarts {α : Type} [BEq α] : List α → List α → Bool
  | [], _ => true
  | _ :: _, [] => false
  | p :: ps, c :: cs => p == c && listStarts ps cs

/-- `path.startswith (("http://", "https://"))` from `find_local_image_refs`
(case-sensitive, exactly as in the source). -/
def startsWithHttp (s : Chars) : Bool :=
  listStarts (str "http://") s || listStarts (str "https://") s

/-- Split `s` at the first occurrence of the character `c`:
returns the (`c`-free) part before it and the part after it. -/
def breakAt (c : Char) : Chars → Option (Chars × Chars)
  | [] => none
  | x :: xs =>
    if x = c then some ([], xs)
    else (breakAt c xs).map (fun p => (x :: p.1, p.2))

/-- One attempt of the extraction regex `!\[[^\]]*\]\(([^)]+)\)` anchored at the
head of `s`.  Returns the captured target and the remaining text after the
match.  The character classes exclude their closing delimiter, so the regex
match at a given position is forced: the alt text runs to the first `]`, the
target to the first `)` and must be non-empty. -/
def tryMdRef (s : Chars) : Option (Chars × Chars) :=
  match s with
  | '!' :: '[' :: t =>
    match breakAt ']' t with
    | some (_, u) =>
      match u with
      | '(' :: v =>
        match breakAt ')' v with
        | some (tgt, rest) => if tgt = [] then none else some (tgt, rest)
        | none => none
      | _ => none
    | none => none
  | _ => none

/-- `re.finditer` scan for the markdown-image regex: try a match at each
position, emit the capture and continue after the match end (non-overlapping),
otherwise advance one character. -/
def mdTargetsAux : Nat → Chars → List Chars
  | 0, _ => []
  | fuel + 1, s =>
    match tryMdRef s with
    | some (tgt, rest) => tgt :: mdTargetsAux fuel rest
    | none =>
      match s with
      | [] => []
      | _ :: cs => mdTargetsAux fuel cs

/-- All captures of the markdown-image regex over the whole text. -/
def mdTargets (s : Chars) : List Chars := mdTargetsAux s.length s

/-- ASCII lower-casing, modelling `re.IGNORECASE` matching. -/
def lowerChar (c : Char) : Char :=
  if 'A' ≤ c ∧ c ≤ 'Z' then Char.ofNat (c.toNat + 32) else c

/-- Case-insensitive character comparison. -/
def ciEq (a b : Char) : Bool := lowerChar a == lowerChar b

/-- Strip a case-insensitive literal from the head of `s`, returning the rest. -/
def stripCi : Chars → Chars → Option Chars
  | [], s => some s
  | _ :: _, [] => none
  | p :: ps, c :: cs => if ciEq p c then stripCi ps cs else none

def isQuote (c : Char) : Bool := c == '"' || c == '\''

/-- Split at the first single or double quote: the quote-free part before it,
the quote character itself, and the part after it. -/
def breakQ : Chars → Option (Chars × Char × Chars)
  | [] => none
  | c :: cs =>
    if isQuote c then some ([], c, cs)
    else (breakQ cs).map (fun p => (c :: p.1, p.2.1, p.2.2))

/-- Attempt the `src=["\']([^"\']+)["\']` part of the HTML image regex after
skipping `j` characters of `[^>]+`.  Returns the captured target and the text
after the closing quote. -/
def tryImgAt (rest0 : Chars) (j : Nat) : Option (Chars × Chars) :=
  match stripCi (str "src=") (rest0.drop j) with
  | some (q :: v) =>
    if isQuote q then
      match breakQ v with
      | some (tgt, _, w) => if tgt = [] then none else some (tgt, w)
      | none => none
    else none
  | some [] => none
  | none => none

/-- Backtracking of the greedy `[^>]+`: try the longest mid-part first and
shrink it one character at a time, as the regex engine does.  `j = 0` is
excluded because `[^>]+` must consume at least one character. -/
def searchImg (rest0 : Chars) : Nat → Option (Chars × Chars)
  | 0 => none
  | j + 1 =>
    match tryImgAt rest0 (j + 1) with
    | some r => some r
    | none => searchImg rest0 j

/-- One attempt of the extraction regex `<img[^>]+src=["\']([^"\']+)["\']`
(with `re.IGNORECASE`) anchored at the head of `s`. -/
def tryImgRef (s : Chars) : Option (Chars × Chars) :=
  match stripCi (str "<img") s with
  | none => none
  | some rest0 => searchImg rest0 (rest0.takeWhile (fun c => c ≠ '>')).length

/-- `re.finditer` scan for the HTML image regex. -/
def imgTargetsAux : Nat → Chars → List Chars
  | 0, _ => []
  | fuel + 1, s =>
    match tryImgRef s with
    | some (tgt, rest) => tgt :: imgTargetsAux fuel rest
    | none =>
      match s with
      | [] => []
      | _ :: cs => imgTargetsAux fuel cs

/-- All captures of the HTML image regex over the whole text. -/
def imgTargets (s : Chars) : List Chars := imgTargetsAux s.length s

/-- The final dedup loop of `find_local_image_refs`: keep each reference the
first time it is seen (`seen` set plus `unique` output list). -/
def dedupFirst (seen : List Chars) : List Chars → List Chars
  | [] => []
  | r :: rs =>
    if r ∈ seen then dedupFirst seen rs
    else r :: dedupFirst (r :: seen) rs

/-- The `refs` list of `find_local_image_refs` before deduplication: all
markdown-image captures (in document order), then all HTML-image captures
(in document order), each filtered by the URL-scheme test. -/
def allRefs (content : Chars) : List Chars :=
  (mdTargets content).filter (fun p => !startsWithHttp p) ++
    (imgTargets content).filter (fun p => !startsWithHttp p)

/-- `find_local_image_refs` from the source: collect markdown-image captures,
then HTML-image captures, each filtered by the (case-sensitive) URL-scheme
test, then deduplicate preserving order. -/
def find_local_image_refs (content : Chars) : List Chars :=
  dedupFirst [] (allRefs content)

/-! ### The rewriting substitutions of `main` -/

/-- Strip a (case-sensitive) literal from the head of `s`, returning the
rest: how `re.escape(orig_ref)` matches in the markdown substitution regex. -/
def stripEq : Chars → Chars → Option Chars
  | [], s => some s
  | _ :: _, [] => none
  | p :: ps, c :: cs => if p = c then stripEq ps cs else none

/-- One attempt of the substitution regex `(!\[[^\]]*\]\()(escaped_ref)(\))`
anchored at the head of `s`: the reference is a literal here (the extraction
regex's `[^)]+` is replaced by `re.escape(orig_ref)`).  Returns the alt text
and the remaining text after the match. -/
def tryMdSub (ref : Chars) (s : Chars) : Option (Chars × Chars) :=
  match s with
  | c1 :: c2 :: t =>
    if c1 = '!' ∧ c2 = '[' then
      match breakAt ']' t with
      | none => none
      | some (alt, u) =>
        match u with
        | [] => none
        | c3 :: v =>
          if c3 = '(' then
            match stripEq ref v with
            | none => none
            | some w =>
              match w with
              | [] => none
              | c4 :: rest => if c4 = ')' then some (alt, rest) else none
          else none
    else none
  | _ => none

/-- The text written for one markdown-image match: `\1{raw_url}\3`, i.e. the
original `![alt](` and `)` with `t` as the new target. -/
def mdBlockL (alt t : Chars) : Chars :=
  '!' :: '[' :: (alt ++ ']' :: '(' :: (t ++ [')']))

/-- `re.sub` scan for the markdown-image substitution: replace each
non-overlapping leftmost match, continuing after the match end. -/
def subMdAux (ref url : Chars) : Nat → Chars → Chars
  | 0, s => s
  | fuel + 1, s =>
    match tryMdSub ref s with
    | some (alt, rest) => mdBlockL alt url ++ subMdAux ref url fuel rest
    | none =>
      match s with
      | [] => []
      | c :: cs => c :: subMdAux ref url fuel cs

def subMd (ref url s : Chars) : Chars := subMdAux ref url s.length s

/-- Attempt of `src=["\'](escaped_ref)(["\'])` (case-insensitive) after `j`
characters of `[^>]+`, for the substitution regex
`(<img[^>]+src=["\'])(escaped_ref)(["\'])`.  Returns the original matched
text of group 1 (`s.take (j + 9)`), the closing quote and the rest. -/
def tryImgSubAt (ref s rest0 : Chars) (j : Nat) : Option (Chars × Char × Chars) :=
  match stripCi (str "src=") (rest0.drop j) with
  | some (q :: v) =>
    if isQuote q then
      match stripCi ref v with
      | some (q2 :: rest) =>
        if isQuote q2 then some (s.take (j + 9), q2, rest) else none
      | some [] => none
      | none => none
    else none
  | some [] => none
  | none => none

/-- Greedy backtracking over the `[^>]+` length for the substitution regex. -/
def searchImgSub (ref s rest0 : Chars) : Nat → Option (Chars × Char × Chars)
  | 0 => none
  | j + 1 =>
    match tryImgSubAt ref s rest0 (j + 1) with
    | some r => some r
    | none => searchImgSub ref s rest0 j

/-- One attempt of the substitution regex
`(<img[^>]+src=["\'])(escaped_ref)(["\'])` with `re.IGNORECASE`, anchored at
the head of `s`. -/
def tryImgSub (ref : Chars) (s : Chars) : Option (Chars × Char × Chars) :=
  match stripCi (str "<img") s with
  | none => none
  | some rest0 => searchImgSub ref s rest0 (rest0.takeWhile (fun c => c ≠ '>')).length

/-- `re.sub` scan for the HTML-image substitution: each match is replaced by
`\1{raw_url}\3` (original prefix through the opening quote, the URL, the
original closing quote). -/
def subImgAux (ref url : Chars) : Nat → Chars → Chars
  | 0, s => s
  | fuel + 1, s =>
    match tryImgSub ref s with
    | some (pre, q2, rest) => pre ++ url ++ q2 :: subImgAux ref url fuel rest
    | none =>
      match s with
      | [] => []
      | c :: cs => c :: subImgAux ref url fuel cs

def subImg (ref url s : Chars) : Chars := subImgAux ref url s.length s

/-! ### Raw URL construction (`urllib.parse.quote`) -/

/-- Characters kept verbatim by `urllib.parse.quote` with the default
`safe='/'`: unreserved characters (letters, digits, `_.-~`) plus `/`. -/
def isSafeChar (c : Char) : Bool :=
  ('A' ≤ c && c ≤ 'Z') || ('a' ≤ c && c ≤ 'z') || ('0' ≤ c && c ≤ '9') ||
    c == '_' || c == '.' || c == '-' || c == '~' || c == '/'

/-- Upper-case hexadecimal digit of `n % 16`, as `quote` emits. -/
def hexChar (n : Nat) : Char :=
  match n % 16 with
  | 0 => '0' | 1 => '1' | 2 => '2' | 3 => '3' | 4 => '4' | 5 => '5' | 6 => '6'
  | 7 => '7' | 8 => '8' | 9 => '9' | 10 => 'A' | 11 => 'B' | 12 => 'C'
  | 13 => 'D' | 14 => 'E' | _ => 'F'

/-- UTF-8 encoding of one character, as `quote` encodes non-safe characters. -/
def utf8Bytes (c : Char) : List Nat :=
  let n := c.toNat
  if n < 0x80 then [n]
  else if n < 0x800 then [0xC0 + n / 0x40, 0x80 + n % 0x40]
  else if n < 0x10000 then [0xE0 + n / 0x1000, 0x80 + n / 0x40 % 0x40, 0x80 + n % 0x40]
  else [0xF0 + n / 0x40000, 0x80 + n / 0x1000 % 0x40, 0x80 + n / 0x40 % 0x40, 0x80 + n % 0x40]

/-- `urllib.parse.quote(sanitized)`: safe characters verbatim, everything else
percent-encoded per UTF-8 byte with upper-case hex digits. -/
def quoteChars (s : Chars) : Chars :=
  s.foldr
    (fun c acc =>
      (if isSafeChar c then [c]
       else (utf8Bytes c).foldr (fun b acc2 => '%' :: hexChar (b / 16) :: hexChar b :: acc2) []) ++ acc)
    []

/-- The stable raw URL of `main`:
`f"https://gist.githubusercontent.com/{owner}/{gist_id}/raw/{encoded_name}"`. -/
def buildRawUrl (owner id sanitized : Chars) : Chars :=
  str "https://gist.githubusercontent.com/" ++ owner ++ '/' :: id ++ str "/raw/" ++ quoteChars sanitized

/-- Rewriting pass for one rewrite-map entry: build the raw URL, apply the
markdown substitution, then the HTML substitution, exactly as the loop body in
`main` does. -/
def rewriteOne (owner id : Chars) (acc : Chars) (e : Chars × Chars) : Chars :=
  subImg e.1 (buildRawUrl owner id e.2) (subMd e.1 (buildRawUrl owner id e.2) acc)

/-- The whole rewriting loop of `main` over the rewrite map (insertion
order). -/
def rewriteAll (m : List (Chars × Chars)) (owner id content : Chars) : Chars :=
  m.foldl (rewriteOne owner id) content

/-! ### `sanitize_filename` -/

/-- `os.path.basename`: the part after the last `/`. -/
def basenameChars (path : Chars) : Chars :=
  (path.reverse.takeWhile (fun c => c ≠ '/')).reverse

/-- `"_" + os.path.basename(path).replace(" ", "-")`. -/
def sanBase (path : Chars) : Chars :=
  '_' :: (basenameChars path).map (fun c => if c = ' ' then '-' else c)

/-- `os.path.splitext` on the sanitized base name: split at the last dot
(the base always starts with `_`, so the leading-dot special case of
`splitext` never applies), extension includes the dot. -/
def splitExt (base : Chars) : Chars × Chars :=
  match breakAt '.' base.reverse with
  | some (revExt, revStem) => (revStem.reverse, '.' :: revExt.reverse)
  | none => (base, [])

/-- Decimal digit character of `n % 10`. -/
def dig (n : Nat) : Char :=
  match n % 10 with
  | 0 => '0' | 1 => '1' | 2 => '2' | 3 => '3' | 4 => '4' | 5 => '5' | 6 => '6'
  | 7 => '7' | 8 => '8' | _ => '9'

/-- Decimal rendering of a natural number (with fuel; `natChars` below always
supplies enough). -/
def natCharsAux : Nat → Nat → Chars
  | 0, n => [dig n]
  | fuel + 1, n => if n < 10 then [dig n] else natCharsAux fuel (n / 10) ++ [dig n]

/-- Decimal rendering of `n`, as the f-string `f"{name}-{counter}{ext}"`
renders the counter. -/
def natChars (n : Nat) : Chars := natCharsAux n n

/-- The candidate filename `f"{name}-{counter}{ext}"` of the collision loop. -/
def sanCand (stem ext : Chars) (k : Nat) : Chars := stem ++ '-' :: natChars k ++ ext

/-- The collision loop `while f"{name}-{counter}{ext}" in taken: counter += 1`
(with fuel; `sanitize_filename` supplies `taken.length + 1`, which always
suffices, see `sanitizeLoop_finds`). -/
def sanitizeLoop (stem ext : Chars) (taken : List Chars) : Nat → Nat → Chars
  | k, 0 => sanCand stem ext k
  | k, fuel + 1 =>
    if sanCand stem ext k ∈ taken then sanitizeLoop stem ext taken (k + 1) fuel
    else sanCand stem ext k

/-- `sanitize_filename` from the source.  The mutated `taken` set is modelled
by returning the updated collection alongside the result. -/
def sanitize_filename (path : Chars) (taken : List Chars) : Chars × List Chars :=
  if sanBase path ∈ taken then
    let r := sanitizeLoop (splitExt (sanBase path)).1 (splitExt (sanBase path)).2 taken 2 (taken.length + 1)
    (r, r :: taken)
  else (sanBase path, sanBase path :: taken)

/-! ### Percent decoding (`urllib.parse.unquote`) -/

/-- Hexadecimal digit value; `unquote` accepts both cases. -/
def hexVal (c : Char) : Option Nat :=
  if '0' ≤ c ∧ c ≤ '9' then some (c.toNat - 48)
  else if 'A' ≤ c ∧ c ≤ 'F' then some (c.toNat - 55)
  else if 'a' ≤ c ∧ c ≤ 'f' then some (c.toNat - 87)
  else none

/-- Tokenize for `unquote`: a `%` followed by two hex digits becomes a byte,
anything else stays a literal character. -/
def pctTokens : Nat → Chars → List (Char ⊕ Nat)
  | 0, _ => []
  | fuel + 1, s =>
    match s with
    | [] => []
    | '%' :: h1 :: h2 :: rest =>
      match hexVal h1, hexVal h2 with
      | some a, some b => Sum.inr (16 * a + b) :: pctTokens fuel rest
      | _, _ => Sum.inl '%' :: pctTokens fuel (h1 :: h2 :: rest)
    | c :: cs => Sum.inl c :: pctTokens fuel cs

def replChar : Char := Char.ofNat 0xFFFD

def isCont (b : Nat) : Bool := 0x80 ≤ b && b < 0xC0

/-- UTF-8 decoding of a byte run, malformed sequences replaced
(`errors='replace'`). -/
def utf8Decode : Nat → List Nat → Chars
  | 0, _ => []
  | _ + 1, [] => []
  | fuel + 1, b :: bs =>
    if b < 0x80 then Char.ofNat b :: utf8Decode fuel bs
    else if 0xC2 ≤ b && b ≤ 0xDF then
      match bs with
      | b2 :: bs2 =>
        if isCont b2 then Char.ofNat ((b - 0xC0) * 0x40 + (b2 - 0x80)) :: utf8Decode fuel bs2
        else replChar :: utf8Decode fuel bs
      | [] => [replChar]
    else if 0xE0 ≤ b && b ≤ 0xEF then
      match bs with
      | b2 :: b3 :: bs3 =>
        if isCont b2 && isCont b3 &&
            !(b == 0xE0 && b2 < 0xA0) && !(b == 0xED && 0xA0 ≤ b2) then
          Char.ofNat ((b - 0xE0) * 0x1000 + (b2 - 0x80) * 0x40 + (b3 - 0x80)) :: utf8Decode fuel bs3
        else replChar :: utf8Decode fuel (b2 :: b3 :: bs3)
      | _ => [replChar]
    else if 0xF0 ≤ b && b ≤ 0xF4 then
      match bs with
      | b2 :: b3 :: b4 :: bs4 =>
        if isCont b2 && isCont b3 && isCont b4 &&
            !(b == 0xF0 && b2 < 0x90) && !(b == 0xF4 && 0x90 ≤ b2) then
          Char.ofNat ((b - 0xF0) * 0x40000 + (b2 - 0x80) * 0x1000 + (b3 - 0x80) * 0x40 + (b4 - 0x80)) ::
            utf8Decode fuel bs4
        else replChar :: utf8Decode fuel (b2 :: b3 :: b4 :: bs4)
      | _ => [replChar]
    else replChar :: utf8Decode fuel bs

def tokByte : Char ⊕ Nat → Nat
  | Sum.inl _ => 0
  | Sum.inr b => b

/-- Reassemble the token stream: literal characters verbatim, maximal byte
runs decoded as UTF-8. -/
def pctDecodeAux : Nat → List (Char ⊕ Nat) → Chars
  | 0, _ => []
  | _ + 1, [] => []
  | fuel + 1, Sum.inl c :: ts => c :: pctDecodeAux fuel ts
  | fuel + 1, Sum.inr b :: ts =>
    utf8Decode (ts.length + 1) (b :: (ts.takeWhile Sum.isRight).map tokByte) ++
      pctDecodeAux fuel (ts.dropWhile Sum.isRight)

/-- `urllib.parse.unquote(ref)`. -/
def percentDecode (s : Chars) : Chars :=
  pctDecodeAux (s.length + 1) (pctTokens s.length s)

/-! ### Path resolution and the rewrite-map loop of `main`

Paths are modelled as lists of components.  The markdown directory
`md_dir = os.path.dirname(os.path.abspath(markdown_file))` is an absolute,
normalized path and enters the model as its component list; `normSegs`
models `os.path.normpath` on an absolute path componentwise (empty and `.`
components dropped, `..` pops, `..` above the root vanishes), and the
`os.path.commonpath([md_dir, full_path]) != md_dir` rejection test is
equivalent to `md_dir`'s components not being a leading segment of
`full_path`'s components. -/

/-- Split a path string into `/`-separated components (with fuel). -/
def splitSlashAux : Nat → Chars → List Chars
  | 0, s => [s]
  | fuel + 1, s =>
    match breakAt '/' s with
    | some (seg, rest) => seg :: splitSlashAux fuel rest
    | none => [s]

def splitSlash (s : Chars) : List Chars := splitSlashAux s.length s

/-- Componentwise `os.path.normpath` for an absolute path. -/
def normSegs (segs : List Chars) : List Chars :=
  segs.foldl
    (fun acc seg =>
      if seg = [] ∨ seg = ['.'] then acc
      else if seg = str ".." then acc.dropLast
      else acc ++ [seg])
    []

/-- `os.path.abspath(os.path.join(md_dir, decoded))`: an absolute `decoded`
replaces `md_dir`, otherwise the components are joined; then normalized. -/
def resolvePath (mdDir : List Chars) (decoded : Chars) : List Chars :=
  match decoded with
  | '/' :: _ => normSegs (splitSlash decoded)
  | _ => normSegs (mdDir ++ splitSlash decoded)

/-- The traversal guard `os.path.commonpath([md_dir, full_path]) == md_dir`. -/
def insideDir (mdDir full : List Chars) : Bool :=
  listStarts mdDir full

/-- One iteration of the reference-resolution loop of `main`: decode the
reference, resolve it against the markdown directory, reject it when it
escapes the directory subtree or does not name an existing regular file
(`fs` lists the component paths of existing regular files), otherwise
sanitize and record it. -/
def buildStep (mdDir : List Chars) (fs : List (List Chars))
    (st : List (Chars × Chars) × List Chars) (ref : Chars) :
    List (Chars × Chars) × List Chars :=
  let decoded := percentDecode ref
  let full := resolvePath mdDir decoded
  if insideDir mdDir full then
    if full ∈ fs then
      (st.1 ++ [(ref, (sanitize_filename decoded st.2).1)], (sanitize_filename decoded st.2).2)
    else st
  else st

/-- The reference-resolution loop of `main` building `rewrite_map` (and the
`taken_names` set). -/
def buildRewriteMap (mdDir : List Chars) (refs : List Chars) (fs : List (List Chars)) :
    List (Chars × Chars) × List Chars :=
  refs.foldl (buildStep mdDir fs) ([], [])

/-! ### The gist markdown filename of `main` -/

/-- Two-digit zero-padded decimal (`%m`, `%d`, `%H`, `%M`, `%S`). -/
def pad2 (n : Nat) : Chars := [dig (n / 10), dig n]

/-- Four-digit zero-padded decimal (`%Y` for years up to 9999). -/
def pad4 (n : Nat) : Chars := [dig (n / 1000), dig (n / 100), dig (n / 10), dig n]

/-- `datetime.now(timezone.utc).strftime("%Y-%m-%dT%H%M%SZ-")`. -/
def utcStamp (y mo d h mi s : Nat) : Chars :=
  pad4 y ++ '-' :: pad2 mo ++ '-' :: pad2 d ++ 'T' :: pad2 h ++ pad2 mi ++ pad2 s ++ str "Z-"

/-- Python `str.endswith`. -/
def endsWithChars (suf s : Chars) : Bool := listStarts suf.reverse s.reverse

/-- Append `.md` unless the name already ends with it. -/
def forceMdExt (n : Chars) : Chars :=
  if endsWithChars (str ".md") n then n else n ++ str ".md"

/-- `args.name if args.name else md_basename`: Python's truthiness makes an
empty `--name` fall back to the basename. -/
def chooseGistName (nameArg : Option Chars) (mdBase : Chars) : Chars :=
  match nameArg with
  | some nm => if nm = [] then mdBase else nm
  | none => mdBase

/-- The remote gist markdown filename computed in `main`. -/
def gistMdName (y mo d h mi s : Nat) (nameArg : Option Chars) (mdBase : Chars) : Chars :=
  utcStamp y mo d h mi s ++ forceMdExt (chooseGistName nameArg mdBase)

/-! ### The gist-creation response check of `main` -/

/-- Python's substring test `pat in s`. -/
def containsSub (pat : Chars) : Chars → Bool
  | [] => pat == []
  | c :: cs => listStarts pat (c :: cs) || containsSub pat cs

/-- `gist_url.rstrip("/").split("/")[-1]`. -/
def gistIdOf (s : Chars) : Chars :=
  (((s.reverse.dropWhile (fun c => c = '/')).reverse).reverse.takeWhile (fun c => c ≠ '/')).reverse

/-- The step of `main` after `gh gist create` returns `s`: fatal error unless
the text contains `gist.github.com`, otherwise continue with the gist id. -/
def afterCreate (s : Chars) : Except Chars Chars :=
  if containsSub (str "gist.github.com") s then Except.ok (gistIdOf s)
  else Except.error (str "Error: Unexpected response from gh: " ++ s)

/-! ### Specification-side predicates used by the theorems -/

/-- `ref` occurs in `t` as the target of the markdown-image syntax: some
alt text free of `]` between `![` and `](`, then `ref`, then `)`. -/
def MdOcc (ref t : Chars) : Prop :=
  ∃ p a q, t = p ++ '!' :: '[' :: (a ++ ']' :: '(' :: (ref ++ ')' :: q)) ∧ ']' ∉ a

/-- Lexicographic order on character lists (Python string `<`, and the
alphabetical order of the gist file listing). -/
def lexLt (a b : Chars) : Prop := List.Lex (· < ·) a b

/-- Index of the first occurrence of `a` in `l` (length of `l` if absent). -/
def firstIdx {α : Type} [DecidableEq α] : List α → α → Nat
  | [], _ => 0
  | x :: xs, a => if x = a then 0 else firstIdx xs a + 1

/-- Index of the first position where `pat` occurs as a sub-list of `t`
(length of `t` if absent). -/
def firstSubstrIdx (pat : Chars) : Chars → Nat
  | [] => 0
  | c :: cs => if listStarts pat (c :: cs) then 0 else firstSubstrIdx pat cs + 1

/-- Case-insensitive equality of two character lists (how `re.IGNORECASE`
compares the escaped reference with matched text). -/
def ciEqL : Chars → Chars → Bool
  | [], [] => true
  | p :: ps, c :: cs => ciEq p c && ciEqL ps cs
  | _, _ => false

/-! ## Basic decomposition lemmas -/

theorem listStarts_iff {α : Type} [BEq α] [LawfulBEq α] {p s : List α} :
    listStarts p s = true ↔ ∃ r, s = p ++ r := by
  induction p generalizing s with
  | nil => simp [listStarts]
  | cons x ps ih =>
    cases s with
    | nil => simp [listStarts]
    | cons c cs =>
      constructor
      · intro h
        simp only [listStarts, Bool.and_eq_true, beq_iff_eq] at h
        obtain ⟨rfl, h2⟩ := h
        obtain ⟨r, rfl⟩ := ih.mp h2
        exact ⟨r, rfl⟩
      · rintro ⟨r, h⟩
        injection h with h1 h2
        subst h1
        simp only [listStarts, Bool.and_eq_true, beq_iff_eq, true_and, beq_self_eq_true]
        exact ih.mpr ⟨r, h2⟩

theorem breakAt_some {c : Char} {s a r : Chars} :
    breakAt c s = some (a, r) ↔ s = a ++ c :: r ∧ c ∉ a := by
  induction s generalizing a r with
  | nil =>
    simp only [breakAt]
    constructor
    · intro h
      exact absurd h (by simp)
    · rintro ⟨h, -⟩
      exact absurd h (by simp)
  | cons x xs ih =>
    by_cases hx : x = c
    · subst hx
      simp only [breakAt, if_pos rfl, Option.some.injEq, Prod.mk.injEq]
      constructor
      · rintro ⟨rfl, rfl⟩
        exact ⟨rfl, List.not_mem_nil x⟩
      · rintro ⟨h, hmem⟩
        cases a with
        | nil =>
          have h' : xs = r := by simpa using h
          simpa using h'
        | cons y as =>
          simp only [List.cons_append, List.cons.injEq] at h
          exact absurd (h.1 ▸ List.mem_cons_self y as) (h.1 ▸ hmem)
    · simp only [breakAt, if_neg hx, Option.map_eq_some']
      constructor
      · rintro ⟨⟨a', r'⟩, hbr, heq⟩
        simp only [Prod.mk.injEq] at heq
        obtain ⟨h1, h2⟩ := heq
        subst h2
        obtain ⟨h3, hnotmem⟩ := ih.mp hbr
        refine ⟨?_, ?_⟩
        · rw [← h1, h3]
          rfl
        · rw [← h1]
          intro hmem
          rcases List.mem_cons.mp hmem with h | h
          · exact hx h.symm
          · exact hnotmem h
      · rintro ⟨h, hmem⟩
        cases a with
        | nil =>
          simp only [List.nil_append, List.cons.injEq] at h
          exact absurd h.1 hx
        | cons y as =>
          simp only [List.cons_append, List.cons.injEq] at h
          refine ⟨(as, r), ih.mpr ⟨h.2, fun hc => hmem (List.mem_cons_of_mem y hc)⟩, ?_⟩
          simp [h.1]

theorem breakAt_none {c : Char} {s : Chars} :
    breakAt c s = none ↔ c ∉ s := by
  induction s with
  | nil => simp [breakAt]
  | cons x xs ih =>
    by_cases hx : x = c
    · subst hx
      simp [breakAt]
    · have hcx : ¬c = x := fun h => hx h.symm
      simp [breakAt, hx, Option.map_eq_none', ih, hcx]

/-- Rigidity of first-occurrence splits: two decompositions of the same list
at a character not occurring in either leading part coincide. -/
theorem break_unique {c : Char} {a b u v : Chars} (ha : c ∉ a) (hb : c ∉ b)
    (h : a ++ c :: u = b ++ c :: v) : a = b ∧ u = v := by
  have h1 : breakAt c (a ++ c :: u) = some (a, u) := breakAt_some.mpr ⟨rfl, ha⟩
  have h2 : breakAt c (b ++ c :: v) = some (b, v) := breakAt_some.mpr ⟨rfl, hb⟩
  rw [h, h2] at h1
  simp only [Option.some.injEq, Prod.mk.injEq] at h1
  exact ⟨h1.1.symm, h1.2.symm⟩

theorem stripCi_some {p s r : Chars} :
    stripCi p s = some r ↔ ∃ m, s = m ++ r ∧ ciEqL p m = true := by
  induction p generalizing s with
  | nil =>
    simp only [stripCi, Option.some.injEq]
    constructor
    · rintro rfl
      exact ⟨[], rfl, rfl⟩
    · rintro ⟨m, rfl, hm⟩
      cases m with
      | nil => rfl
      | cons y ms => exact absurd hm (by simp [ciEqL])
  | cons p ps ih =>
    cases s with
    | nil =>
      constructor
      · intro h
        exact absurd h (by simp [stripCi])
      · rintro ⟨m, hm, hci⟩
        cases m with
        | nil => exact absurd hci (by simp [ciEqL])
        | cons y ms => exact absurd hm (by simp)
    | cons c cs =>
      by_cases hpc : ciEq p c = true
      · rw [stripCi, if_pos hpc, ih]
        constructor
        · rintro ⟨m', rfl, hm'⟩
          exact ⟨c :: m', rfl, by simp [ciEqL, hpc, hm']⟩
        · rintro ⟨m, hm, hci⟩
          cases m with
          | nil => exact absurd hci (by simp [ciEqL])
          | cons y ms =>
            injection hm with h1 h2
            subst h1
            simp only [ciEqL, Bool.and_eq_true] at hci
            exact ⟨ms, h2, hci.2⟩
      · rw [stripCi, if_neg hpc]
        constructor
        · intro h
          exact absurd h (by simp)
        · rintro ⟨m, hm, hci⟩
          cases m with
          | nil => exact absurd hci (by simp [ciEqL])
          | cons y ms =>
            injection hm with h1 h2
            subst h1
            simp only [ciEqL, Bool.and_eq_true] at hci
            exact absurd hci.1 hpc

theorem ciEqL_length {p m : Chars} (h : ciEqL p m = true) : p.length = m.length := by
  induction p generalizing m with
  | nil =>
    cases m with
    | nil => rfl
    | cons y ms => exact absurd h (by simp [ciEqL])
  | cons p ps ih =>
    cases m with
    | nil => exact absurd h (by simp [ciEqL])
    | cons y ms =>
      simp only [ciEqL, Bool.and_eq_true] at h
      simp [ih h.2]

theorem breakQ_some {s t : Chars} {q : Char} {w : Chars} :
    breakQ s = some (t, q, w) ↔
      s = t ++ q :: w ∧ isQuote q = true ∧ ∀ c ∈ t, isQuote c = false := by
  induction s generalizing t with
  | nil =>
    constructor
    · intro h
      exact absurd h (by simp [breakQ])
    · rintro ⟨h, -⟩
      exact absurd h (by simp)
  | cons x xs ih =>
    by_cases hx : isQuote x = true
    · rw [breakQ, if_pos hx]
      constructor
      · intro h
        simp only [Option.some.injEq, Prod.mk.injEq] at h
        obtain ⟨h1, h2, h3⟩ := h
        subst h1
        subst h2
        subst h3
        exact ⟨by simp, hx, by simp⟩
      · rintro ⟨heq, hq, hall⟩
        cases t with
        | nil =>
          simp only [List.nil_append, List.cons.injEq] at heq
          simp [heq.1, heq.2]
        | cons y ts =>
          simp only [List.cons_append, List.cons.injEq] at heq
          have := hall y (List.mem_cons_self y ts)
          rw [← heq.1] at this
          rw [this] at hx
          exact absurd hx (by simp)
    · rw [breakQ, if_neg hx]
      constructor
      · intro h
        rw [Option.map_eq_some'] at h
        obtain ⟨⟨t', q', w'⟩, hbr, heq⟩ := h
        simp only [Prod.mk.injEq] at heq
        obtain ⟨h1, h2, h3⟩ := heq
        subst h2
        subst h3
        obtain ⟨hs, hq, hall⟩ := ih.mp hbr
        subst h1
        refine ⟨by simp [hs], hq, ?_⟩
        intro c hc
        rcases List.mem_cons.mp hc with rfl | hc
        · simpa using hx
        · exact hall c hc
      · rintro ⟨heq, hq, hall⟩
        cases t with
        | nil =>
          simp only [List.nil_append, List.cons.injEq] at heq
          rw [heq.1] at hx
          exact absurd hq hx
        | cons y ts =>
          simp only [List.cons_append, List.cons.injEq] at heq
          rw [Option.map_eq_some']
          refine ⟨(ts, q, w), ih.mpr ⟨heq.2, hq, fun c hc => hall c (List.mem_cons_of_mem y hc)⟩, ?_⟩
          simp [heq.1]

theorem mem_dedupFirst {a : Chars} : ∀ {l seen : List Chars},
    a ∈ dedupFirst seen l ↔ a ∈ l ∧ a ∉ seen := by
  intro l
  induction l with
  | nil => intro seen; simp [dedupFirst]
  | cons x xs ih =>
    intro seen
    by_cases hx : x ∈ seen
    · rw [dedupFirst, if_pos hx, ih]
      constructor
      · rintro ⟨h1, h2⟩
        exact ⟨List.mem_cons_of_mem x h1, h2⟩
      · rintro ⟨h1, h2⟩
        rcases List.mem_cons.mp h1 with rfl | h1
        · exact absurd hx h2
        · exact ⟨h1, h2⟩
    · rw [dedupFirst, if_neg hx]
      constructor
      · intro h
        rcases List.mem_cons.mp h with rfl | h
        · exact ⟨List.mem_cons_self a xs, hx⟩
        · obtain ⟨h1, h2⟩ := ih.mp h
          exact ⟨List.mem_cons_of_mem x h1, fun hc => h2 (List.mem_cons_of_mem x hc)⟩
      · rintro ⟨h1, h2⟩
        rcases List.mem_cons.mp h1 with rfl | h1
        · exact List.mem_cons_self a _
        · by_cases hax : a = x
          · subst hax
            exact List.mem_cons_self a _
          · exact List.mem_cons_of_mem x (ih.mpr ⟨h1, by simp [hax, h2]⟩)

theorem nodup_dedupFirst : ∀ {l seen : List Chars}, (dedupFirst seen l).Nodup := by
  intro l
  induction l with
  | nil => intro seen; simp [dedupFirst]
  | cons x xs ih =>
    intro seen
    by_cases hx : x ∈ seen
    · rw [dedupFirst, if_pos hx]
      exact ih
    · rw [dedupFirst, if_neg hx]
      refine List.Pairwise.cons ?_ ih
      intro b hb hxb
      obtain ⟨-, h2⟩ := mem_dedupFirst.mp hb
      subst hxb
      exact h2 (List.mem_cons_self x _)

theorem firstIdx_cons {α : Type} [DecidableEq α] (x : α) (xs : List α) (a : α) :
    firstIdx (x :: xs) a = if x = a then 0 else firstIdx xs a + 1 := rfl

theorem pairwise_transfer {α : Type} {R S : α → α → Prop} :
    ∀ {l : List α}, l.Pairwise R → (∀ a ∈ l, ∀ b ∈ l, R a b → S a b) → l.Pairwise S := by
  intro l
  induction l with
  | nil => intro _ _; exact List.Pairwise.nil
  | cons x xs ih =>
    intro hp htr
    rcases List.pairwise_cons.mp hp with ⟨hx, hxs⟩
    refine List.pairwise_cons.mpr ⟨?_, ?_⟩
    · intro b hb
      exact htr x (List.mem_cons_self x xs) b (List.mem_cons_of_mem x hb) (hx b hb)
    · exact ih hxs fun a ha b hb => htr a (List.mem_cons_of_mem x ha) b (List.mem_cons_of_mem x hb)

theorem dedupFirst_pairwise : ∀ {l seen : List Chars},
    List.Pairwise (fun a b => firstIdx l a < firstIdx l b) (dedupFirst seen l) := by
  intro l
  induction l with
  | nil => intro seen; simp [dedupFirst]
  | cons x xs ih =>
    intro seen
    by_cases hx : x ∈ seen
    · rw [dedupFirst, if_pos hx]
      refine pairwise_transfer ih ?_
      intro a ha b hb hr
      have hax : a ≠ x := fun h => (mem_dedupFirst.mp ha).2 (h ▸ hx)
      have hbx : b ≠ x := fun h => (mem_dedupFirst.mp hb).2 (h ▸ hx)
      rw [firstIdx_cons, firstIdx_cons, if_neg (fun h => hax h.symm), if_neg (fun h => hbx h.symm)]
      omega
    · rw [dedupFirst, if_neg hx]
      refine List.pairwise_cons.mpr ⟨?_, ?_⟩
      · intro b hb
        have hbx : b ≠ x := fun h => (mem_dedupFirst.mp hb).2 (h ▸ List.mem_cons_self x seen)
        rw [firstIdx_cons, firstIdx_cons, if_pos rfl, if_neg (fun h => hbx h.symm)]
        omega
      · refine pairwise_transfer ih ?_
        intro a ha b hb hr
        have hax : a ≠ x := fun h => (mem_dedupFirst.mp ha).2 (h ▸ List.mem_cons_self x seen)
        have hbx : b ≠ x := fun h => (mem_dedupFirst.mp hb).2 (h ▸ List.mem_cons_self x seen)
        rw [firstIdx_cons, firstIdx_cons, if_neg (fun h => hax h.symm), if_neg (fun h => hbx h.symm)]
        omega

theorem containsSub_iff {pat s : Chars} :
    containsSub pat s = true ↔ ∃ p q, s = p ++ pat ++ q := by
  induction s with
  | nil =>
    simp only [containsSub, beq_iff_eq]
    constructor
    · rintro rfl
      exact ⟨[], [], rfl⟩
    · rintro ⟨p, q, h⟩
      rcases p with _ | ⟨y, ps⟩
      · rcases pat with _ | ⟨z, zs⟩
        · rfl
        · exact absurd h (by simp)
      · exact absurd h (by simp)
  | cons x xs ih =>
    simp only [containsSub, Bool.or_eq_true]
    constructor
    · rintro (h | h)
      · obtain ⟨r, hr⟩ := listStarts_iff.mp h
        exact ⟨[], r, by simp [hr]⟩
      · obtain ⟨p, q, rfl⟩ := ih.mp h
        exact ⟨x :: p, q, rfl⟩
    · rintro ⟨p, q, hpq⟩
      cases p with
      | nil =>
        left
        exact listStarts_iff.mpr ⟨q, by simpa using hpq⟩
      | cons y ps =>
        right
        simp only [List.cons_append, List.cons.injEq] at hpq
        exact ih.mpr ⟨ps, q, hpq.2⟩

/-! ## Claim C10 -/

/-- C10: the URL-scheme exclusion of `find_local_image_refs` is
case-sensitive even though the HTML tag match is case-insensitive: on this
input both upper-case-scheme targets — one of them inside an `<IMG SRC=...>`
tag — are returned as candidate local references instead of being excluded as
URLs. -/
theorem c10_upper_scheme_extracted :
    find_local_image_refs (str "![a](HTTP://example.com/a.png) <IMG SRC='HTTP://e/b.png'>") =
      [str "HTTP://example.com/a.png", str "HTTP://e/b.png"] ∧
      startsWithHttp (str "HTTP://example.com/a.png") = false ∧
      startsWithHttp (str "HTTP://e/b.png") = false := by
  refine ⟨by decide, by decide, by decide⟩

/-! ## Claim C1 -/

/-- C1 counterexample: in `<img src="a"/> ![x](b)` the target `a` occurs
before the target `b` in the input text, yet `find_local_image_refs` returns
`[b, a]` — the two regex passes run one after the other, so the output is not
in first-seen document order across the two syntaxes, contrary to the
claim. -/
theorem c1_counterexample :
    find_local_image_refs (str "<img src=\"a\"/> ![x](b)") = [str "b", str "a"] ∧
      firstSubstrIdx (str "a") (str "<img src=\"a\"/> ![x](b)") <
        firstSubstrIdx (str "b") (str "<img src=\"a\"/> ![x](b)") := by
  refine ⟨by decide, by decide⟩

/-- C1 (amended): `find_local_image_refs` returns the non-http(s) targets of
the two supported syntaxes with duplicates removed, ordered by first
occurrence in the concatenation of all markdown-syntax captures (in document
order) followed by all HTML-syntax captures (in document order) — not by
first occurrence in the raw input text when the two syntaxes interleave. -/
theorem c1_dedup_first_seen (content : Chars) :
    (find_local_image_refs content).Nodup ∧
      (∀ t, t ∈ find_local_image_refs content ↔ t ∈ allRefs content) ∧
      List.Pairwise
        (fun a b => firstIdx (allRefs content) a < firstIdx (allRefs content) b)
        (find_local_image_refs content) := by
  refine ⟨nodup_dedupFirst, ?_, dedupFirst_pairwise⟩
  intro t
  rw [find_local_image_refs, mem_dedupFirst]
  simp

/-! ## Claim C9 -/

/-- C9: after the gist-creation subprocess returns text `s`, `main` aborts
with a non-zero exit and a diagnostic (modelled as `Except.error` carrying
the message printed to the error stream) iff `s` does not contain the
snippet host `gist.github.com`; otherwise the run proceeds (to the
image-upload and rewrite steps) with the parsed gist id. -/
theorem c9_create_response_check (s : Chars) :
    ((∃ e, afterCreate s = Except.error e) ↔ ¬∃ p q, s = p ++ str "gist.github.com" ++ q) ∧
      ((∃ p q, s = p ++ str "gist.github.com" ++ q) → afterCreate s = Except.ok (gistIdOf s)) := by
  constructor
  · rw [afterCreate]
    by_cases h : containsSub (str "gist.github.com") s = true
    · rw [if_pos h]
      simp only [containsSub_iff] at h
      constructor
      · rintro ⟨e, he⟩
        exact absurd he (by simp)
      · intro hno
        exact absurd h hno
    · rw [if_neg h]
      simp only [containsSub_iff] at h
      constructor
      · intro _
        exact h
      · intro _
        exact ⟨_, rfl⟩
  · intro h
    rw [afterCreate, if_pos (containsSub_iff.mpr h)]

/-- Witness for C9 at a concrete response: a text containing
`gist.github.com` proceeds with the trailing path segment as gist id. -/
theorem c9_witness : afterCreate (str "https://gist.github.com/u/abc/") = Except.ok (str "abc") := by
  have h := (c9_create_response_check (str "https://gist.github.com/u/abc/")).2
    ⟨str "https://", str "/u/abc/", by decide⟩
  have h2 : gistIdOf (str "https://gist.github.com/u/abc/") = str "abc" := by decide
  rw [h, h2]

/-! ## Claim C3 -/

theorem natCharsAux_eq : ∀ fuel₁ : Nat, ∀ fuel₂ n : Nat, n ≤ fuel₁ → n ≤ fuel₂ →
    natCharsAux fuel₁ n = natCharsAux fuel₂ n := by
  intro fuel₁
  induction fuel₁ with
  | zero =>
    intro fuel₂ n h1 _
    interval_cases n
    cases fuel₂ with
    | zero => rfl
    | succ f => simp [natCharsAux]
  | succ f1 ih =>
    intro fuel₂ n h1 h2
    by_cases hn : n < 10
    · rw [natCharsAux, if_pos hn]
      cases fuel₂ with
      | zero =>
        interval_cases n
        rfl
      | succ f2 => rw [natCharsAux, if_pos hn]
    · rw [natCharsAux, if_neg hn]
      cases fuel₂ with
      | zero => omega
      | succ f2 =>
        rw [natCharsAux, if_neg hn]
        have hd : n / 10 < n := Nat.div_lt_self (by omega) (by omega)
        rw [ih f2 (n / 10) (by omega) (by omega)]

theorem natChars_eq (n : Nat) :
    natChars n = if n < 10 then [dig n] else natChars (n / 10) ++ [dig n] := by
  by_cases hn : n < 10
  · rw [if_pos hn, natChars]
    cases n with
    | zero => rfl
    | succ m => rw [natCharsAux, if_pos hn]
  · rw [if_neg hn, natChars, natChars]
    obtain ⟨m, rfl⟩ : ∃ m, n = m + 1 := ⟨n - 1, by omega⟩
    rw [natCharsAux, if_neg hn]
    have hd : (m + 1) / 10 < m + 1 := Nat.div_lt_self (by omega) (by omega)
    rw [natCharsAux_eq m ((m + 1) / 10) ((m + 1) / 10) (by omega) (by omega)]

theorem natChars_ne_nil (n : Nat) : natChars n ≠ [] := by
  rw [natChars_eq]
  by_cases hn : n < 10
  · simp [hn]
  · simp [hn]

theorem dig_inj_lt : ∀ a, a < 10 → ∀ b, b < 10 → dig a = dig b → a = b := by decide

theorem dig_mod (n : Nat) : dig n = dig (n % 10) := by
  unfold dig
  rw [Nat.mod_mod_of_dvd n (dvd_refl 10)]

theorem natChars_inj : ∀ m n : Nat, natChars m = natChars n → m = n := by
  intro m
  induction m using Nat.strong_induction_on with
  | _ m ih =>
    intro n h
    by_cases hm : m < 10
    · by_cases hn : n < 10
      · rw [natChars_eq m, if_pos hm, natChars_eq n, if_pos hn] at h
        injection h with h1 _
        exact dig_inj_lt m hm n hn h1
      · rw [natChars_eq m, if_pos hm, natChars_eq n, if_neg hn] at h
        have hlen := congrArg List.length h
        simp at hlen
        exact absurd hlen (natChars_ne_nil _)
    · by_cases hn : n < 10
      · rw [natChars_eq m, if_neg hm, natChars_eq n, if_pos hn] at h
        have hlen := congrArg List.length h
        simp at hlen
        exact absurd hlen (natChars_ne_nil _)
      · rw [natChars_eq m, if_neg hm, natChars_eq n, if_neg hn] at h
        have hrev := congrArg List.reverse h
        simp only [List.reverse_append, List.reverse_cons, List.reverse_nil,
          List.nil_append, List.singleton_append, List.cons.injEq] at hrev
        obtain ⟨hdig, htail⟩ := hrev
        have htl : natChars (m / 10) = natChars (n / 10) :=
          List.reverse_injective htail
        have h10 : m / 10 = n / 10 :=
          ih (m / 10) (Nat.div_lt_self (by omega) (by omega)) (n / 10) htl
        have hmod : m % 10 = n % 10 := by
          have := dig_mod m ▸ dig_mod n ▸ hdig
          exact dig_inj_lt (m % 10) (Nat.mod_lt _ (by omega)) (n % 10) (Nat.mod_lt _ (by omega)) this
        omega

theorem sanCand_inj (stem ext : Chars) {k1 k2 : Nat}
    (h : sanCand stem ext k1 = sanCand stem ext k2) : k1 = k2 := by
  unfold sanCand at h
  have h1 : stem ++ '-' :: natChars k1 = stem ++ '-' :: natChars k2 :=
    List.append_cancel_right h
  have h2 : ('-' :: natChars k1 : Chars) = '-' :: natChars k2 :=
    List.append_cancel_left h1
  injection h2 with _ h3
  exact natChars_inj k1 k2 h3

theorem sanitizeLoop_finds (stem ext : Chars) (taken : List Chars) :
    ∀ fuel k : Nat, (∃ j, k ≤ j ∧ j < k + fuel ∧ sanCand stem ext j ∉ taken) →
      sanitizeLoop stem ext taken k fuel ∉ taken ∧
      ∃ K, k ≤ K ∧ sanitizeLoop stem ext taken k fuel = sanCand stem ext K ∧
        ∀ j, k ≤ j → j < K → sanCand stem ext j ∈ taken := by
  intro fuel
  induction fuel with
  | zero =>
    rintro k ⟨j, h1, h2, -⟩
    omega
  | succ f ih =>
    rintro k ⟨j, h1, h2, h3⟩
    by_cases hc : sanCand stem ext k ∈ taken
    · rw [sanitizeLoop, if_pos hc]
      have hjk : k + 1 ≤ j := by
        rcases Nat.eq_or_lt_of_le h1 with rfl | h
        · exact absurd hc h3
        · omega
      obtain ⟨hnot, K, hK1, hK2, hK3⟩ := ih (k + 1) ⟨j, hjk, by omega, h3⟩
      refine ⟨hnot, K, by omega, hK2, ?_⟩
      intro j' hj1 hj2
      rcases Nat.eq_or_lt_of_le hj1 with rfl | h
      · exact hc
      · exact hK3 j' h hj2
    · rw [sanitizeLoop, if_neg hc]
      exact ⟨hc, k, le_refl k, rfl, fun j' h1' h2' => absurd (lt_of_le_of_lt h1' h2') (lt_irrefl k)⟩

theorem exists_free_cand (stem ext : Chars) (taken : List Chars) (k : Nat) :
    ∃ j, k ≤ j ∧ j < k + (taken.length + 1) ∧ sanCand stem ext j ∉ taken := by
  by_contra hcon
  push_neg at hcon
  have hall : ∀ j, k ≤ j → j < k + (taken.length + 1) → sanCand stem ext j ∈ taken := hcon
  have hnodup : ((List.range' k (taken.length + 1)).map (sanCand stem ext)).Nodup := by
    refine List.Nodup.map ?_ (List.nodup_range' k (taken.length + 1))
    intro a b hab
    exact sanCand_inj stem ext hab
  have hsub : ∀ x ∈ (List.range' k (taken.length + 1)).map (sanCand stem ext), x ∈ taken := by
    intro x hx
    obtain ⟨j, hj, rfl⟩ := List.mem_map.mp hx
    obtain ⟨hj1, hj2⟩ := List.mem_range'_1.mp hj
    exact hall j hj1 hj2
  have hlen : ((List.range' k (taken.length + 1)).map (sanCand stem ext)).length = taken.length + 1 := by
    simp
  have hcard1 : ((List.range' k (taken.length + 1)).map (sanCand stem ext)).toFinset.card = taken.length + 1 := by
    rw [List.toFinset_card_of_nodup hnodup, hlen]
  have hcard2 : ((List.range' k (taken.length + 1)).map (sanCand stem ext)).toFinset ⊆ taken.toFinset := by
    intro x hx
    rw [List.mem_toFinset] at hx ⊢
    exact hsub x hx
  have := Finset.card_le_card hcard2
  have := taken.toFinset_card_le
  omega

/-- C3: `sanitize_filename` is deterministic and collision-free: the result is
`_` + the basename with spaces replaced by hyphens when that name is free,
otherwise the first candidate `stem-k ++ ext` (k = 2, 3, …, suffix before the
extension) not in the taken set; the result is never in the input set and is
recorded as taken. -/
theorem c3_sanitize_filename (path : Chars) (taken : List Chars) :
    (sanitize_filename path taken).1 ∉ taken ∧
      (sanitize_filename path taken).2 = (sanitize_filename path taken).1 :: taken ∧
      (sanBase path ∉ taken → (sanitize_filename path taken).1 = sanBase path) ∧
      (sanBase path ∈ taken →
        ∃ K, 2 ≤ K ∧
          (sanitize_filename path taken).1 =
            sanCand (splitExt (sanBase path)).1 (splitExt (sanBase path)).2 K ∧
          ∀ j, 2 ≤ j → j < K →
            sanCand (splitExt (sanBase path)).1 (splitExt (sanBase path)).2 j ∈ taken) := by
  by_cases h : sanBase path ∈ taken
  · obtain ⟨hnot, K, hK1, hK2, hK3⟩ :=
      sanitizeLoop_finds (splitExt (sanBase path)).1 (splitExt (sanBase path)).2 taken
        (taken.length + 1) 2
        (exists_free_cand (splitExt (sanBase path)).1 (splitExt (sanBase path)).2 taken 2)
    rw [sanitize_filename, if_pos h]
    exact ⟨hnot, rfl, fun hc => absurd h hc, fun _ => ⟨K, hK1, hK2, hK3⟩⟩
  · rw [sanitize_filename, if_neg h]
    exact ⟨h, rfl, fun _ => rfl, fun hc => absurd hc h⟩

/-- Witness for C3: colliding basenames `img.png` and `sub/img.png` yield
`_img.png` then `_img-2.png`, the latter not in and then added to the taken
set. -/
theorem c3_witness :
    (sanitize_filename (str "img.png") []).1 = sanBase (str "img.png") ∧
      sanitize_filename (str "sub/img.png") [str "_img.png"] =
        (str "_img-2.png", [str "_img-2.png", str "_img.png"]) ∧
      (sanitize_filename (str "sub/img.png") [str "_img.png"]).1 ∉ [str "_img.png"] := by
  refine ⟨(c3_sanitize_filename (str "img.png") []).2.2.1 (by decide), by decide,
    (c3_sanitize_filename (str "sub/img.png") [str "_img.png"]).1⟩

/-! ## Claim C6 -/

theorem listStarts_append {α : Type} [BEq α] [LawfulBEq α] (p r : List α) :
    listStarts p (p ++ r) = true :=
  listStarts_iff.mpr ⟨r, rfl⟩

theorem endsWithChars_append (suf a b : Chars) (h : endsWithChars suf b = true) :
    endsWithChars suf (a ++ b) = true := by
  rw [endsWithChars] at h ⊢
  obtain ⟨r, hr⟩ := listStarts_iff.mp h
  rw [List.reverse_append, hr, List.append_assoc]
  exact listStarts_append _ _

theorem forceMdExt_endsWith (n : Chars) : endsWithChars (str ".md") (forceMdExt n) = true := by
  rw [forceMdExt]
  by_cases h : endsWithChars (str ".md") n = true
  · rw [if_pos h]
    exact h
  · rw [if_neg h, endsWithChars, List.reverse_append]
    exact listStarts_append _ _

/-- C6 counterexample: with the empty override `--name ""` the claim predicts
the remote filename `<stamp>.md` (the override with `.md` appended), but
Python's truthiness test makes the code fall back to the input basename, so
the result is `<stamp>notes.md`. -/
theorem c6_counterexample :
    gistMdName 2026 10 12 13 4 5 (some []) (str "notes.md") =
      str "2026-10-12T130405Z-notes.md" ∧
      gistMdName 2026 10 12 13 4 5 (some []) (str "notes.md") ≠
        utcStamp 2026 10 12 13 4 5 ++ str ".md" := by
  refine ⟨by decide, by decide⟩

/-- C6 (amended): the remote gist markdown filename is the UTC stamp
`YYYY-MM-DDTHHMMSSZ-` followed by the override — when one is given and
non-empty (an empty override is treated as absent) — or else the input
basename, with `.md` appended exactly when the chosen name does not already
end in `.md`; the result always ends in `.md`. -/
theorem c6_gist_filename (y mo d h mi s : Nat) (base : Chars) :
    (∀ nm : Chars, nm ≠ [] →
        gistMdName y mo d h mi s (some nm) base = utcStamp y mo d h mi s ++ forceMdExt nm) ∧
      gistMdName y mo d h mi s none base = utcStamp y mo d h mi s ++ forceMdExt base ∧
      (∀ n, endsWithChars (str ".md") n = true → forceMdExt n = n) ∧
      (∀ n, endsWithChars (str ".md") n = false → forceMdExt n = n ++ str ".md") ∧
      ∀ nameArg, endsWithChars (str ".md") (gistMdName y mo d h mi s nameArg base) = true := by
  refine ⟨?_, rfl, ?_, ?_, ?_⟩
  · intro nm hnm
    rw [gistMdName, chooseGistName, if_neg hnm]
  · intro n hn
    rw [forceMdExt, if_pos hn]
  · intro n hn
    rw [forceMdExt, if_neg (by rw [hn]; exact Bool.false_ne_true)]
  · intro nameArg
    rw [gistMdName]
    exact endsWithChars_append _ _ _ (forceMdExt_endsWith _)

/-- Witness for C6: `--name report` on `notes.md` yields
`<stamp>-report.md`, as in the claim's example. -/
theorem c6_witness :
    gistMdName 2026 10 12 13 4 5 (some (str "report")) (str "notes.md") =
      str "2026-10-12T130405Z-report.md" := by
  have h := (c6_gist_filename 2026 10 12 13 4 5 (str "notes.md")).1 (str "report") (by decide)
  rw [h]
  decide

/-! ## Claim C8 -/

theorem dig_lt_underscore (n : Nat) : dig n < '_' := by
  rw [dig_mod]
  have h : n % 10 < 10 := Nat.mod_lt _ (by omega)
  have hall : ∀ m, m < 10 → dig m < '_' := by decide
  exact hall _ h

theorem lexLt_head {a b : Char} {as bs : Chars} (h : a < b) : lexLt (a :: as) (b :: bs) :=
  List.Lex.rel h

theorem splitExt_stem (m : Chars) : ∃ t, (splitExt ('_' :: m)).1 = '_' :: t := by
  rw [splitExt]
  cases hb : breakAt '.' ('_' :: m).reverse with
  | none => exact ⟨m, rfl⟩
  | some p =>
    obtain ⟨revExt, revStem⟩ := p
    obtain ⟨heq, -⟩ := breakAt_some.mp hb
    have hrev : revStem.reverse ++ '.' :: revExt.reverse = '_' :: m := by
      have h2 := congrArg List.reverse heq
      rw [List.reverse_reverse] at h2
      rw [h2]
      simp
    cases hrs : revStem.reverse with
    | nil =>
      rw [hrs] at hrev
      simp only [List.nil_append, List.cons.injEq] at hrev
      exact absurd hrev.1 (by decide)
    | cons h t =>
      rw [hrs] at hrev
      simp only [List.cons_append, List.cons.injEq] at hrev
      exact ⟨t, by simp [hrs, hrev.1]⟩

theorem sanCand_path_starts (path : Chars) (K : Nat) :
    ∃ t, sanCand (splitExt (sanBase path)).1 (splitExt (sanBase path)).2 K = '_' :: t := by
  obtain ⟨t, ht⟩ := splitExt_stem ((basenameChars path).map (fun c => if c = ' ' then '-' else c))
  have hstem : (splitExt (sanBase path)).1 = '_' :: t := ht
  refine ⟨t ++ '-' :: natChars K ++ (splitExt (sanBase path)).2, ?_⟩
  show (splitExt (sanBase path)).1 ++ '-' :: natChars K ++ (splitExt (sanBase path)).2 = _
  rw [hstem]
  simp

theorem sanitize_starts (path : Chars) (taken : List Chars) :
    ∃ t, (sanitize_filename path taken).1 = '_' :: t := by
  by_cases h : sanBase path ∈ taken
  · obtain ⟨-, K, -, hK2, -⟩ :=
      sanitizeLoop_finds (splitExt (sanBase path)).1 (splitExt (sanBase path)).2 taken
        (taken.length + 1) 2
        (exists_free_cand (splitExt (sanBase path)).1 (splitExt (sanBase path)).2 taken 2)
    obtain ⟨t, ht⟩ := sanCand_path_starts path K
    refine ⟨t, ?_⟩
    rw [sanitize_filename, if_pos h]
    show sanitizeLoop (splitExt (sanBase path)).1 (splitExt (sanBase path)).2 taken 2
      (taken.length + 1) = '_' :: t
    rw [hK2]
    exact ht
  · refine ⟨(basenameChars path).map (fun c => if c = ' ' then '-' else c), ?_⟩
    rw [sanitize_filename, if_neg h]
    rfl

theorem gistMdName_head (y mo d h mi s : Nat) (nameArg : Option Chars) (base : Chars) :
    ∃ t, gistMdName y mo d h mi s nameArg base = dig (y / 1000) :: t := by
  rw [gistMdName, utcStamp, pad4]
  exact ⟨_, rfl⟩

theorem buildStep_cases (mdDir : List Chars) (fs : List (List Chars))
    (st : List (Chars × Chars) × List Chars) (ref : Chars) :
    buildStep mdDir fs st ref = st ∨
      (insideDir mdDir (resolvePath mdDir (percentDecode ref)) = true ∧
        resolvePath mdDir (percentDecode ref) ∈ fs ∧
        buildStep mdDir fs st ref =
          (st.1 ++ [(ref, (sanitize_filename (percentDecode ref) st.2).1)],
            (sanitize_filename (percentDecode ref) st.2).2)) := by
  rw [buildStep]
  by_cases h1 : insideDir mdDir (resolvePath mdDir (percentDecode ref)) = true
  · by_cases h2 : resolvePath mdDir (percentDecode ref) ∈ fs
    · right
      rw [if_pos h1, if_pos h2]
      exact ⟨h1, h2, rfl⟩
    · left
      rw [if_pos h1, if_neg h2]
  · left
    rw [if_neg h1]

theorem buildRewriteMap_values_underscore (mdDir : List Chars) (fs : List (List Chars)) :
    ∀ refs : List Chars, ∀ st : List (Chars × Chars) × List Chars,
      (∀ v ∈ st.1.map Prod.snd, ∃ t, v = '_' :: t) →
      ∀ v ∈ (List.foldl (buildStep mdDir fs) st refs).1.map Prod.snd,
        ∃ t, v = '_' :: t := by
  intro refs
  induction refs with
  | nil =>
    intro st hst v hv
    exact hst v hv
  | cons ref rs ih =>
    intro st hst v hv
    refine ih _ ?_ v hv
    rcases buildStep_cases mdDir fs st ref with heq | ⟨-, -, heq⟩
    · rw [heq]
      exact hst
    · rw [heq]
      intro w hw
      simp only [List.map_append, List.mem_append, List.map_cons, List.map_nil,
        List.mem_singleton] at hw
      rcases hw with hw | hw
      · exact hst w hw
      · subst hw
        exact sanitize_starts _ _

/-- C8: the generated gist markdown filename begins with a decimal digit of
the UTC year while every sanitized image filename in the rewrite map begins
with `_`, and a digit precedes `_`, so the markdown filename is
lexicographically smaller than every uploaded image filename (it sorts
first). -/
theorem c8_md_sorts_first (y mo d h mi s : Nat) (nameArg : Option Chars) (base : Chars)
    (mdDir : List Chars) (refs : List Chars) (fs : List (List Chars)) :
    (∀ path taken, lexLt (gistMdName y mo d h mi s nameArg base) (sanitize_filename path taken).1) ∧
      ∀ v ∈ (buildRewriteMap mdDir refs fs).1.map Prod.snd,
        lexLt (gistMdName y mo d h mi s nameArg base) v := by
  have hlt : ∀ v : Chars, (∃ t, v = '_' :: t) → lexLt (gistMdName y mo d h mi s nameArg base) v := by
    rintro v ⟨t, rfl⟩
    obtain ⟨g, hg⟩ := gistMdName_head y mo d h mi s nameArg base
    rw [hg]
    exact lexLt_head (dig_lt_underscore _)
  constructor
  · intro path taken
    exact hlt _ (sanitize_starts path taken)
  · intro v hv
    refine hlt v ?_
    exact buildRewriteMap_values_underscore mdDir fs refs ([], []) (by simp) v hv

/-- Witness for C8 at a concrete run: the stamped filename precedes the
sanitized image name `_a.png` of a concrete rewrite map in the gist
listing. -/
theorem c8_witness :
    lexLt (gistMdName 2026 1 2 3 4 5 none (str "n.md")) (str "_a.png") :=
  (c8_md_sorts_first 2026 1 2 3 4 5 none (str "n.md") [str "d"] [str "a.png"]
    [[str "d", str "a.png"]]).2 (str "_a.png") (by decide)

/-! ## Claims C5 and C7: URL-scheme exclusion -/

theorem mem_allRefs_not_http {content t : Chars} (h : t ∈ allRefs content) :
    startsWithHttp t = false := by
  rw [allRefs, List.mem_append] at h
  rcases h with h | h
  · have := (List.mem_filter.mp h).2
    simpa using this
  · have := (List.mem_filter.mp h).2
    simpa using this

theorem mem_find_not_http {content t : Chars} (h : t ∈ find_local_image_refs content) :
    startsWithHttp t = false := by
  rw [find_local_image_refs] at h
  exact mem_allRefs_not_http (mem_dedupFirst.mp h).1

theorem listStarts_append_of {α : Type} [BEq α] [LawfulBEq α] {p a : List α} (b : List α)
    (h : listStarts p a = true) : listStarts p (a ++ b) = true := by
  obtain ⟨r, rfl⟩ := listStarts_iff.mp h
  rw [List.append_assoc]
  exact listStarts_append _ _

theorem buildRawUrl_https (owner id sanitized : Chars) :
    listStarts (str "https://") (buildRawUrl owner id sanitized) = true := by
  rw [buildRawUrl]
  refine listStarts_append_of _ (listStarts_append_of _ (listStarts_append_of _ (listStarts_append_of _ ?_)))
  decide

/-- C7: every raw URL the rewriter substitutes begins with `https://`, and
extraction filters out every target with that leading scheme, so running
`find_local_image_refs` on the rewritten text returns none of the substituted
URLs. -/
theorem c7_rewrite_idempotent (m : List (Chars × Chars)) (owner id content : Chars) :
    ∀ e ∈ m,
      listStarts (str "https://") (buildRawUrl owner id e.2) = true ∧
        buildRawUrl owner id e.2 ∉ find_local_image_refs (rewriteAll m owner id content) := by
  intro e _
  refine ⟨buildRawUrl_https owner id e.2, ?_⟩
  intro hmem
  have hfalse := mem_find_not_http hmem
  rw [startsWithHttp] at hfalse
  have := buildRawUrl_https owner id e.2
  rw [this] at hfalse
  simp at hfalse

/-- Witness for C7 at a concrete rewrite. -/
theorem c7_witness :
    buildRawUrl (str "o") (str "i") (str "_a.png") ∉
      find_local_image_refs
        (rewriteAll [(str "a.png", str "_a.png")] (str "o") (str "i") (str "![x](a.png)")) :=
  ((c7_rewrite_idempotent [(str "a.png", str "_a.png")] (str "o") (str "i") (str "![x](a.png)"))
    (str "a.png", str "_a.png") (by decide)).2

theorem buildRewriteMap_keys_sub (mdDir : List Chars) (fs : List (List Chars)) :
    ∀ refs : List Chars, ∀ st : List (Chars × Chars) × List Chars,
      ∀ k ∈ (List.foldl (buildStep mdDir fs) st refs).1.map Prod.fst,
        k ∈ st.1.map Prod.fst ∨ k ∈ refs := by
  intro refs
  induction refs with
  | nil =>
    intro st k hk
    exact Or.inl hk
  | cons ref rs ih =>
    intro st k hk
    rcases ih _ k hk with hk' | hk'
    · rcases buildStep_cases mdDir fs st ref with heq | ⟨-, -, heq⟩
      · rw [heq] at hk'
        exact Or.inl hk'
      · rw [heq] at hk'
        simp only [List.map_append, List.mem_append, List.map_cons, List.map_nil,
          List.mem_singleton] at hk'
        rcases hk' with hk' | hk'
        · exact Or.inl hk'
        · exact Or.inr (hk' ▸ List.mem_cons_self ref rs)
    · exact Or.inr (List.mem_cons_of_mem ref hk')

/-- C5 counterexample: with the (valid, existing) reference `Http://x` in the
rewrite map, the http-scheme target `http://x` of the `<img>` tag — which
extraction correctly excluded — is nevertheless rewritten, because the
HTML-substitution regex matches the mapped reference case-insensitively; the
target does not pass through rewriting unchanged. -/
theorem c5_counterexample :
    find_local_image_refs (str "![a](Http://x) <img src='http://x'>") = [str "Http://x"] ∧
      containsSub (str "http://x") (str "![a](Http://x) <img src='http://x'>") = true ∧
      containsSub (str "http://x")
        (rewriteAll
          (buildRewriteMap [str "home", str "u"]
            (find_local_image_refs (str "![a](Http://x) <img src='http://x'>"))
            [[str "home", str "u", str "Http:", str "x"]]).1
          (str "o") (str "i") (str "![a](Http://x) <img src='http://x'>")) = false := by
  refine ⟨by decide, by decide, by decide⟩

/-- C5 (amended): extraction excludes every target beginning with `http://`
or `https://`, and such targets never enter the rewrite map, hence are never
the pattern of any substitution; an http(s)-prefixed target's text can still
change when it differs from some mapped (non-http) reference only by letter
case, because the HTML-substitution regex is case-insensitive. -/
theorem c5_http_excluded (content : Chars) :
    (∀ t ∈ find_local_image_refs content, startsWithHttp t = false) ∧
      ∀ mdDir fs,
        ∀ k ∈ (buildRewriteMap mdDir (find_local_image_refs content) fs).1.map Prod.fst,
          startsWithHttp k = false := by
  constructor
  · intro t ht
    exact mem_find_not_http ht
  · intro mdDir fs k hk
    rcases buildRewriteMap_keys_sub mdDir fs (find_local_image_refs content) ([], []) k hk with
      hk' | hk'
    · simp at hk'
    · exact mem_find_not_http hk'

/-- Witness for C5 at a concrete extraction. -/
theorem c5_witness : startsWithHttp (str "a.png") = false :=
  (c5_http_excluded (str "![x](a.png)")).1 (str "a.png") (by decide)

/-! ## Claim C4 -/

/-- C4: a reference whose decoded path resolves outside the markdown
directory subtree, or does not name an existing regular file, never appears
among the rewrite-map keys (and hence is never rewritten). -/
theorem c4_invalid_refs_skipped (mdDir : List Chars) (refs : List Chars)
    (fs : List (List Chars)) (ref : Chars)
    (h : insideDir mdDir (resolvePath mdDir (percentDecode ref)) = false ∨
      resolvePath mdDir (percentDecode ref) ∉ fs) :
    ref ∉ (buildRewriteMap mdDir refs fs).1.map Prod.fst := by
  rw [buildRewriteMap]
  have hgen : ∀ rs : List Chars, ∀ st : List (Chars × Chars) × List Chars,
      ref ∉ st.1.map Prod.fst → ref ∉ (List.foldl (buildStep mdDir fs) st rs).1.map Prod.fst := by
    intro rs
    induction rs with
    | nil =>
      intro st hst
      exact hst
    | cons r rs' ih =>
      intro st hst
      refine ih _ ?_
      rcases buildStep_cases mdDir fs st r with heq | ⟨h1, h2, heq⟩
      · rw [heq]
        exact hst
      · rw [heq]
        intro hc
        simp only [List.map_append, List.mem_append, List.map_cons, List.map_nil,
          List.mem_singleton] at hc
        rcases hc with hc | hc
        · exact hst hc
        · subst hc
          rcases h with h | h
          · rw [h1] at h
            exact absurd h (by simp)
          · exact h h2
  exact hgen refs ([], []) (by simp)

/-- Witness for C4: a directory-traversal reference and a missing-file
reference are both absent from the rewrite map. -/
theorem c4_witness :
    str "../../etc/hosts" ∉
      (buildRewriteMap [str "home", str "u"] [str "../../etc/hosts"]
        [[str "home", str "u", str "a.png"]]).1.map Prod.fst ∧
      str "missing.png" ∉
        (buildRewriteMap [str "home", str "u"] [str "missing.png"]
          [[str "home", str "u", str "a.png"]]).1.map Prod.fst := by
  refine ⟨c4_invalid_refs_skipped _ _ _ _ (Or.inl (by decide)),
    c4_invalid_refs_skipped _ _ _ _ (Or.inr (by decide))⟩

/-! ## Claim C2: the rewriting substitutions -/

theorem stripEq_some {p s r : Chars} : stripEq p s = some r ↔ s = p ++ r := by
  induction p generalizing s with
  | nil => simp [stripEq]
  | cons x ps ih =>
    cases s with
    | nil =>
      constructor
      · intro h
        exact absurd h (by simp [stripEq])
      · intro h
        exact absurd h (by simp)
    | cons c cs =>
      by_cases hx : x = c
      · subst hx
        rw [stripEq, if_pos rfl, ih]
        constructor
        · intro h
          rw [h, List.cons_append]
        · intro h
          rw [List.cons_append] at h
          exact ((List.cons.injEq _ _ _ _).mp h).2
      · rw [stripEq, if_neg hx]
        constructor
        · intro h
          exact absurd h (by simp)
        · intro h
          injection h with h1 _
          exact absurd h1.symm hx

theorem tryMdSub_some {ref s alt rest : Chars} :
    tryMdSub ref s = some (alt, rest) ↔
      s = '!' :: '[' :: (alt ++ ']' :: '(' :: (ref ++ ')' :: rest)) ∧ ']' ∉ alt := by
  constructor
  · intro h
    rcases s with _ | ⟨c1, s1⟩
    · exact absurd h (by simp [tryMdSub])
    rcases s1 with _ | ⟨c2, t⟩
    · exact absurd h (by simp [tryMdSub])
    rw [tryMdSub] at h
    split at h
    · rename_i h12
      obtain ⟨rfl, rfl⟩ := h12
      split at h
      · exact absurd h (by simp)
      · rename_i alt' u hb
        split at h
        · exact absurd h (by simp)
        · rename_i c3 v
          split at h
          · rename_i h3
            subst h3
            split at h
            · exact absurd h (by simp)
            · rename_i w hst
              split at h
              · exact absurd h (by simp)
              · rename_i c4 rest' h4
                split at h
                · rename_i h4
                  subst h4
                  simp only [Option.some.injEq, Prod.mk.injEq] at h
                  obtain ⟨h5, h6⟩ := h
                  subst h5
                  subst h6
                  have hv := stripEq_some.mp hst
                  obtain ⟨ht, halt⟩ := breakAt_some.mp hb
                  subst hv
                  subst ht
                  exact ⟨rfl, halt⟩
                · exact absurd h (by simp)
          · exact absurd h (by simp)
    · exact absurd h (by simp)
  · rintro ⟨rfl, halt⟩
    have hbreak : breakAt ']' (alt ++ ']' :: '(' :: (ref ++ ')' :: rest)) =
        some (alt, '(' :: (ref ++ ')' :: rest)) :=
      breakAt_some.mpr ⟨rfl, halt⟩
    have hstrip : stripEq ref (ref ++ ')' :: rest) = some (')' :: rest) :=
      stripEq_some.mpr rfl
    rw [tryMdSub, if_pos ⟨rfl, rfl⟩, hbreak]
    simp [hstrip]

theorem tryMdSub_rest_length {ref s alt rest : Chars} (h : tryMdSub ref s = some (alt, rest)) :
    rest.length < s.length := by
  obtain ⟨rfl, -⟩ := tryMdSub_some.mp h
  simp
  omega

theorem subMdAux_fuel (ref url : Chars) :
    ∀ f1 : Nat, ∀ f2 : Nat, ∀ s : Chars, s.length ≤ f1 → s.length ≤ f2 →
      subMdAux ref url f1 s = subMdAux ref url f2 s := by
  intro f1
  induction f1 with
  | zero =>
    intro f2 s h1 _
    have hs : s = [] := List.length_eq_zero.mp (by omega)
    subst hs
    cases f2 with
    | zero => rfl
    | succ g =>
      show subMdAux ref url 0 [] = subMdAux ref url (g + 1) []
      rw [subMdAux, subMdAux]
      rfl
  | succ g1 ih =>
    intro f2 s h1 h2
    cases s with
    | nil =>
      cases f2 with
      | zero => rfl
      | succ g2 => rfl
    | cons c cs =>
      cases f2 with
      | zero => simp at h2
      | succ g2 =>
        rw [subMdAux, subMdAux]
        cases h : tryMdSub ref (c :: cs) with
        | some p =>
          obtain ⟨alt, rest⟩ := p
          have hlen := tryMdSub_rest_length h
          simp only [List.length_cons] at h1 h2 hlen
          dsimp only
          rw [ih g2 rest (by omega) (by omega)]
        | none =>
          simp only [List.length_cons] at h1 h2
          dsimp only
          rw [ih g2 cs (by omega) (by omega)]

theorem subMd_eq (ref url s : Chars) :
    subMd ref url s =
      match tryMdSub ref s with
      | some (alt, rest) => mdBlockL alt url ++ subMd ref url rest
      | none =>
        match s with
        | [] => []
        | c :: cs => c :: subMd ref url cs := by
  cases s with
  | nil => rfl
  | cons c cs =>
    show subMdAux ref url (cs.length + 1) (c :: cs) = _
    rw [subMdAux]
    cases h : tryMdSub ref (c :: cs) with
    | some p =>
      obtain ⟨alt, rest⟩ := p
      have hlen := tryMdSub_rest_length h
      simp only [List.length_cons] at hlen
      dsimp only
      rw [subMdAux_fuel ref url cs.length rest.length rest (by omega) (le_refl _)]
      rfl
    | none => rfl

theorem mdBlock_tail_append (alt url T : Chars) :
    (alt ++ ']' :: '(' :: (url ++ [')'])) ++ T = alt ++ ']' :: '(' :: (url ++ ')' :: T) := by
  simp

/-- No markdown-target occurrence of `ref` can start inside a freshly written
replacement block `![alt](url)`: any occurrence decomposition of
`block ++ T` lies entirely within `T`. -/
theorem block_occ {ref url alt T p a q : Chars}
    (halt : ']' ∉ alt) (ha : ']' ∉ a)
    (hru : ref ≠ url) (hpr : ')' ∉ ref) (hpu : ')' ∉ url) (hbu : '!' ∉ url)
    (heq : mdBlockL alt url ++ T = p ++ '!' :: '[' :: (a ++ ']' :: '(' :: (ref ++ ')' :: q))) :
    ∃ p', p = mdBlockL alt url ++ p' ∧
      T = p' ++ '!' :: '[' :: (a ++ ']' :: '(' :: (ref ++ ')' :: q)) := by
  rcases List.append_eq_append_iff.mp heq with ⟨a', hp, hT⟩ | ⟨c', hB, hR⟩
  · exact ⟨a', hp, hT⟩
  cases c' with
  | nil =>
    refine ⟨[], ?_, ?_⟩
    · rw [List.append_nil] at hB
      rw [hB, List.append_nil]
    · rw [List.nil_append]
      exact hR.symm
  | cons e c'' =>
    exfalso
    have he : e = '!' := by
      have := hR
      simp only [List.cons_append, List.cons.injEq] at this
      exact this.1.symm
    subst he
    rw [mdBlockL] at hB
    cases p with
    | nil =>
      simp only [List.nil_append, List.cons.injEq] at hB
      obtain ⟨-, hB2⟩ := hB
      subst hB2
      have hR2 : a ++ ']' :: '(' :: (ref ++ ')' :: q) =
          alt ++ ']' :: '(' :: (url ++ ')' :: T) := by
        have h0 := hR
        rw [show (('!' :: '[' :: (alt ++ ']' :: '(' :: (url ++ [')']))) ++ T : Chars) =
            '!' :: '[' :: (alt ++ ']' :: '(' :: (url ++ ')' :: T)) from by simp] at h0
        simp only [List.cons.injEq, true_and] at h0
        exact h0
      obtain ⟨-, h5⟩ := break_unique ha halt hR2
      injection h5 with _ h6
      exact hru (break_unique hpr hpu h6).1
    | cons p1 pt =>
      simp only [List.cons_append, List.cons.injEq] at hB
      obtain ⟨hp1, hB2⟩ := hB
      cases pt with
      | nil =>
        simp only [List.nil_append, List.cons.injEq] at hB2
        exact absurd hB2.1 (by decide)
      | cons p2 pt2 =>
        simp only [List.cons_append, List.cons.injEq] at hB2
        obtain ⟨hp2, hinner⟩ := hB2
        rcases List.append_eq_append_iff.mp hinner with ⟨m, hpt2, hm⟩ | ⟨m, halt2, hm⟩
        · cases m with
          | nil =>
            simp only [List.nil_append, List.cons.injEq] at hm
            exact absurd hm.1 (by decide)
          | cons m1 mt =>
            simp only [List.cons_append, List.cons.injEq] at hm
            obtain ⟨hm1, hm2⟩ := hm
            cases mt with
            | nil =>
              simp only [List.nil_append, List.cons.injEq] at hm2
              exact absurd hm2.1 (by decide)
            | cons m2 mt2 =>
              simp only [List.cons_append, List.cons.injEq] at hm2
              obtain ⟨hm21, hm22⟩ := hm2
              rcases List.append_eq_append_iff.mp hm22 with ⟨n, hmt2, hn⟩ | ⟨n, hurl, hn⟩
              · cases n with
                | nil =>
                  simp only [List.nil_append, List.cons.injEq] at hn
                  exact absurd hn.1 (by decide)
                | cons n1 nt =>
                  simp only [List.cons_append, List.cons.injEq] at hn
                  exact absurd hn.2.symm (by simp)
              · cases n with
                | nil =>
                  rw [List.append_nil] at hurl
                  simp only [List.nil_append, List.cons.injEq] at hn
                  exact absurd hn.1 (by decide)
                | cons n1 nt =>
                  simp only [List.cons_append, List.cons.injEq] at hn
                  obtain ⟨hn1, -⟩ := hn
                  subst hn1
                  exact hbu (hurl ▸ List.mem_append_right mt2 (List.mem_cons_self '!' nt))
        · cases m with
          | nil =>
            simp only [List.nil_append, List.cons.injEq] at hm
            exact absurd hm.1 (by decide)
          | cons m1 mt =>
            simp only [List.cons_append, List.cons.injEq] at hm
            obtain ⟨-, hm2⟩ := hm
            have hmtsub : ']' ∉ mt := by
              intro hc
              exact halt (halt2 ▸ List.mem_append_right pt2 (List.mem_cons_of_mem m1 hc))
            have hR2 : '[' :: (a ++ ']' :: '(' :: (ref ++ ')' :: q)) = c'' ++ T := by
              have h0 := hR
              rw [List.cons_append] at h0
              exact ((List.cons.injEq _ _ _ _).mp h0).2
            rw [hm2] at hR2
            have hR3 : '[' :: (a ++ ']' :: '(' :: (ref ++ ')' :: q)) =
                mt ++ ']' :: '(' :: (url ++ ')' :: T) := by
              simp [hR2]
            cases mt with
            | nil =>
              simp only [List.nil_append, List.cons.injEq] at hR3
              exact absurd hR3.1 (by decide)
            | cons mt1 mtt =>
              simp only [List.cons_append, List.cons.injEq] at hR3
              obtain ⟨-, hR4⟩ := hR3
              have hmtt : ']' ∉ mtt := fun hc => hmtsub (List.mem_cons_of_mem mt1 hc)
              obtain ⟨-, h5⟩ := break_unique ha hmtt hR4
              injection h5 with _ h6
              exact hru (break_unique hpr hpu h6).1

/-- Transfer of pattern tails from the output of the markdown substitution
back to its input: if the rewritten text starts (after a copied `![`) with
the rest of a match pattern for `ref`, the input did too.  The three
conjuncts are the peeling states (inside the alt text, at the opening
parenthesis, inside the reference). -/
theorem subMd_chip {ref url : Chars} (hbr : '!' ∉ ref) (hpr : ')' ∉ ref) (hpu : ')' ∉ url)
    (hru : ref ≠ url) :
    ∀ n : Nat, ∀ x : Chars, x.length ≤ n →
      ((∀ w q, ']' ∉ w → subMd ref url x = w ++ ']' :: '(' :: (ref ++ ')' :: q) →
          ∃ q₀, x = w ++ ']' :: '(' :: (ref ++ ')' :: q₀)) ∧
        (∀ q, subMd ref url x = '(' :: (ref ++ ')' :: q) →
          ∃ q₀, x = '(' :: (ref ++ ')' :: q₀)) ∧
        (∀ r q, (∃ r₀, ref = r₀ ++ r) → subMd ref url x = r ++ ')' :: q →
          ∃ q₀, x = r ++ ')' :: q₀)) := by
  intro n
  induction n with
  | zero =>
    intro x hlen
    have hx : x = [] := List.length_eq_zero.mp (by omega)
    subst hx
    refine ⟨?_, ?_, ?_⟩
    · intro w q _ habs
      exact absurd habs.symm (by simp [subMd, subMdAux])
    · intro q habs
      exact absurd habs.symm (by simp [subMd, subMdAux])
    · intro r q hsuf habs
      exact absurd habs.symm (by simp [subMd, subMdAux])
  | succ k ih =>
    intro x hlen
    cases x with
    | nil =>
      refine ⟨?_, ?_, ?_⟩
      · intro w q _ habs
        exact absurd habs.symm (by simp [subMd, subMdAux])
      · intro q habs
        exact absurd habs.symm (by simp [subMd, subMdAux])
      · intro r q hsuf habs
        exact absurd habs.symm (by simp [subMd, subMdAux])
    | cons c cs =>
      have hstep := subMd_eq ref url (c :: cs)
      simp only [List.length_cons] at hlen
      cases h : tryMdSub ref (c :: cs) with
      | some p =>
        obtain ⟨alt, rest⟩ := p
        rw [h] at hstep
        dsimp only at hstep
        refine ⟨?_, ?_, ?_⟩
        · intro w q hw heq
          rw [hstep] at heq
          exfalso
          cases w with
          | nil =>
            rw [mdBlockL] at heq
            simp only [List.nil_append, List.cons_append, List.cons.injEq] at heq
            exact absurd heq.1 (by decide)
          | cons w1 w2 =>
            rw [mdBlockL] at heq
            simp only [List.cons_append, List.cons.injEq] at heq
            obtain ⟨-, heq2⟩ := heq
            cases w2 with
            | nil =>
              simp only [List.nil_append, List.cons.injEq] at heq2
              exact absurd heq2.1 (by decide)
            | cons w3 w4 =>
              simp only [List.cons_append, List.cons.injEq] at heq2
              obtain ⟨-, heq3⟩ := heq2
              have heq4 : alt ++ ']' :: '(' :: (url ++ ')' :: subMd ref url rest) =
                  w4 ++ ']' :: '(' :: (ref ++ ')' :: q) := by
                rw [← heq3]
                simp
              have hw4 : ']' ∉ w4 := fun hc => hw (List.mem_cons_of_mem w1 (List.mem_cons_of_mem w3 hc))
              have halt := (tryMdSub_some.mp h).2
              obtain ⟨-, h5⟩ := break_unique halt hw4 heq4
              injection h5 with _ h6
              exact hru (break_unique hpu hpr h6).1.symm
        · intro q heq
          rw [hstep] at heq
          rw [mdBlockL] at heq
          simp only [List.cons_append, List.cons.injEq] at heq
          exact absurd heq.1 (by decide)
        · intro r q hsuf heq
          rw [hstep] at heq
          cases r with
          | nil =>
            rw [mdBlockL] at heq
            simp only [List.nil_append, List.cons_append, List.cons.injEq] at heq
            exact absurd heq.1 (by decide)
          | cons r1 r2 =>
            rw [mdBlockL] at heq
            simp only [List.cons_append, List.cons.injEq] at heq
            obtain ⟨hr1, -⟩ := heq
            obtain ⟨r₀, hr0⟩ := hsuf
            subst hr1
            exact absurd (hr0 ▸ List.mem_append_right r₀ (List.mem_cons_self '!' r2)) hbr
      | none =>
        rw [h] at hstep
        dsimp only at hstep
        refine ⟨?_, ?_, ?_⟩
        · intro w q hw heq
          rw [hstep] at heq
          cases w with
          | nil =>
            simp only [List.nil_append, List.cons.injEq] at heq
            obtain ⟨hc, hT⟩ := heq
            obtain ⟨q₀, hq₀⟩ := (ih cs (by omega)).2.1 q hT
            exact ⟨q₀, by rw [hc, hq₀]; rfl⟩
          | cons w1 w2 =>
            simp only [List.cons_append, List.cons.injEq] at heq
            obtain ⟨hc, hT⟩ := heq
            have hw2 : ']' ∉ w2 := fun hc2 => hw (List.mem_cons_of_mem w1 hc2)
            obtain ⟨q₀, hq₀⟩ := (ih cs (by omega)).1 w2 q hw2 hT
            exact ⟨q₀, by rw [hc, hq₀]; rfl⟩
        · intro q heq
          rw [hstep] at heq
          simp only [List.cons.injEq] at heq
          obtain ⟨hc, hT⟩ := heq
          obtain ⟨q₀, hq₀⟩ := (ih cs (by omega)).2.2 ref q ⟨[], rfl⟩ hT
          exact ⟨q₀, by rw [hc, hq₀]⟩
        · intro r q hsuf heq
          rw [hstep] at heq
          cases r with
          | nil =>
            simp only [List.nil_append, List.cons.injEq] at heq
            exact ⟨cs, by rw [heq.1]; rfl⟩
          | cons r1 r2 =>
            simp only [List.cons_append, List.cons.injEq] at heq
            obtain ⟨hc, hT⟩ := heq
            obtain ⟨r₀, hr0⟩ := hsuf
            have hsuf2 : ∃ r₀', ref = r₀' ++ r2 := ⟨r₀ ++ [r1], by rw [hr0]; simp⟩
            obtain ⟨q₀, hq₀⟩ := (ih cs (by omega)).2.2 r2 q hsuf2 hT
            exact ⟨q₀, by rw [hc, hq₀]; rfl⟩

/-- Completeness of the markdown substitution: when the reference contains
neither `!` nor `)`, the URL contains neither `!` nor `)`, and the two
differ, no markdown-target occurrence of the reference survives in the
rewritten text — every occurrence was replaced. -/
theorem subMd_no_occ {ref url : Chars} (hbr : '!' ∉ ref) (hpr : ')' ∉ ref)
    (hbu : '!' ∉ url) (hpu : ')' ∉ url) (hru : ref ≠ url) :
    ∀ s : Chars, ¬ MdOcc ref (subMd ref url s) := by
  have main : ∀ n : Nat, ∀ s : Chars, s.length ≤ n → ¬ MdOcc ref (subMd ref url s) := by
    intro n
    induction n with
    | zero =>
      intro s hlen hocc
      have hs : s = [] := List.length_eq_zero.mp (by omega)
      subst hs
      obtain ⟨p, a, q, heq, -⟩ := hocc
      exact absurd heq.symm (by simp [subMd, subMdAux])
    | succ k ih =>
      intro s hlen hocc
      obtain ⟨p, a, q, heq, ha⟩ := hocc
      cases s with
      | nil => exact absurd heq.symm (by simp [subMd, subMdAux])
      | cons c cs =>
        have hstep := subMd_eq ref url (c :: cs)
        simp only [List.length_cons] at hlen
        cases h : tryMdSub ref (c :: cs) with
        | some pr =>
          obtain ⟨alt, rest⟩ := pr
          rw [h] at hstep
          dsimp only at hstep
          rw [hstep] at heq
          have halt := (tryMdSub_some.mp h).2
          obtain ⟨p', -, hT⟩ := block_occ halt ha hru hpr hpu hbu heq
          have hrest := tryMdSub_rest_length h
          simp only [List.length_cons] at hrest
          exact ih rest (by omega) ⟨p', a, q, hT, ha⟩
        | none =>
          rw [h] at hstep
          dsimp only at hstep
          rw [hstep] at heq
          cases p with
          | nil =>
            simp only [List.nil_append, List.cons.injEq] at heq
            obtain ⟨hc, hT⟩ := heq
            have hT2 : subMd ref url cs = ('[' :: a) ++ ']' :: '(' :: (ref ++ ')' :: q) := by
              rw [hT]
              rfl
            have hwa : ']' ∉ ('[' :: a : Chars) := by
              intro hmem
              rcases List.mem_cons.mp hmem with h1 | h1
              · exact absurd h1 (by decide)
              · exact ha h1
            obtain ⟨q₀, hq₀⟩ :=
              (subMd_chip hbr hpr hpu hru cs.length cs (le_refl _)).1 ('[' :: a) q hwa hT2
            have hmatch : tryMdSub ref (c :: cs) = some (a, q₀) := by
              subst hc
              refine tryMdSub_some.mpr ⟨?_, ha⟩
              rw [hq₀]
              rfl
            rw [hmatch] at h
            exact absurd h (by simp)
          | cons p1 p2 =>
            simp only [List.cons_append, List.cons.injEq] at heq
            exact ih cs (by omega) ⟨p2, a, q, heq.2, ha⟩
  intro s
  exact main s.length s (le_refl _)

theorem hexChar_mod (n : Nat) : hexChar n = hexChar (n % 16) := by
  unfold hexChar
  rw [Nat.mod_mod_of_dvd n (dvd_refl 16)]

theorem hexChar_safe (n : Nat) : isSafeChar (hexChar n) = true := by
  rw [hexChar_mod]
  have h : n % 16 < 16 := Nat.mod_lt _ (by omega)
  have hall : ∀ m, m < 16 → isSafeChar (hexChar m) = true := by decide
  exact hall _ h

theorem mem_pct_foldr {c : Char} : ∀ bs : List Nat, ∀ acc : Chars,
    c ∈ List.foldr (fun b acc2 => '%' :: hexChar (b / 16) :: hexChar b :: acc2) acc bs →
    c = '%' ∨ isSafeChar c = true ∨ c ∈ acc := by
  intro bs
  induction bs with
  | nil =>
    intro acc h
    exact Or.inr (Or.inr h)
  | cons b bs ih =>
    intro acc h
    rw [List.foldr_cons] at h
    rcases List.mem_cons.mp h with rfl | h
    · exact Or.inl rfl
    rcases List.mem_cons.mp h with rfl | h
    · exact Or.inr (Or.inl (hexChar_safe _))
    rcases List.mem_cons.mp h with rfl | h
    · exact Or.inr (Or.inl (hexChar_safe _))
    · exact ih acc h

theorem mem_quoteChars {s : Chars} {c : Char} (h : c ∈ quoteChars s) :
    c = '%' ∨ isSafeChar c = true := by
  induction s with
  | nil => exact absurd h (by simp [quoteChars])
  | cons x xs ih =>
    rw [quoteChars, List.foldr_cons, List.mem_append] at h
    rcases h with h | h
    · by_cases hx : isSafeChar x = true
      · rw [if_pos hx] at h
        have hcx : c = x := List.mem_singleton.mp h
        exact Or.inr (hcx ▸ hx)
      · rw [if_neg hx] at h
        rcases mem_pct_foldr (utf8Bytes x) [] h with h1 | h1 | h1
        · exact Or.inl h1
        · exact Or.inr h1
        · exact absurd h1 (by simp)
    · exact ih h

theorem not_mem_buildRawUrl {owner id v : Chars} {c : Char}
    (hc1 : c ∉ owner) (hc2 : c ∉ id) (hc3 : ¬(c = '%' ∨ isSafeChar c = true))
    (hc4 : c ∉ str "https://gist.githubusercontent.com/") (hc5 : c ∉ str "/raw/") :
    c ∉ buildRawUrl owner id v := by
  intro h
  rw [buildRawUrl] at h
  rcases List.mem_append.mp h with h | h
  · rcases List.mem_append.mp h with h | h
    · rcases List.mem_append.mp h with h | h
      · rcases List.mem_append.mp h with h | h
        · exact hc4 h
        · exact hc1 h
      · rcases List.mem_cons.mp h with h | h
        · exact hc3 (Or.inr (by rw [h]; decide))
        · exact hc2 h
    · exact hc5 h
  · exact hc3 (mem_quoteChars h)

theorem bang_not_mem_url {owner id v : Chars} (h1 : '!' ∉ owner) (h2 : '!' ∉ id) :
    '!' ∉ buildRawUrl owner id v :=
  not_mem_buildRawUrl h1 h2 (by decide) (by decide) (by decide)

theorem paren_not_mem_url {owner id v : Chars} (h1 : ')' ∉ owner) (h2 : ')' ∉ id) :
    ')' ∉ buildRawUrl owner id v :=
  not_mem_buildRawUrl h1 h2 (by decide) (by decide) (by decide)

theorem ref_ne_url {ref owner id v : Chars} (h : startsWithHttp ref = false) :
    ref ≠ buildRawUrl owner id v := by
  intro heq
  have hhttps := buildRawUrl_https owner id v
  rw [← heq] at hhttps
  rw [startsWithHttp, hhttps] at h
  simp at h

theorem searchImgSub_some {ref t rest0 : Chars} : ∀ J : Nat, ∀ pre : Chars, ∀ q2 : Char,
    ∀ rest : Chars, searchImgSub ref t rest0 J = some (pre, q2, rest) →
      ∃ j, 1 ≤ j ∧ j ≤ J ∧ tryImgSubAt ref t rest0 j = some (pre, q2, rest) := by
  intro J
  induction J with
  | zero =>
    intro pre q2 rest h
    exact absurd h (by simp [searchImgSub])
  | succ j ih =>
    intro pre q2 rest h
    rw [searchImgSub] at h
    cases h2 : tryImgSubAt ref t rest0 (j + 1) with
    | some r =>
      rw [h2] at h
      dsimp only at h
      exact ⟨j + 1, by omega, le_refl _, h2.trans h⟩
    | none =>
      rw [h2] at h
      dsimp only at h
      obtain ⟨j', hj1, hj2, hj3⟩ := ih pre q2 rest h
      exact ⟨j', hj1, by omega, hj3⟩

/-- Soundness of one HTML-image substitution match: the matched text is the
recorded prefix (through the opening quote), then text case-insensitively
equal to the reference, then the closing quote. -/
theorem tryImgSub_decomp {ref t pre : Chars} {q2 : Char} {rest : Chars}
    (h : tryImgSub ref t = some (pre, q2, rest)) :
    isQuote q2 = true ∧ ∃ mm, ciEqL ref mm = true ∧ t = pre ++ (mm ++ q2 :: rest) := by
  rw [tryImgSub] at h
  cases hs : stripCi (str "<img") t with
  | none =>
    rw [hs] at h
    exact absurd h (by simp)
  | some rest0 =>
    rw [hs] at h
    obtain ⟨j, hj1, hj2, hj3⟩ := searchImgSub_some _ pre q2 rest h
    rw [tryImgSubAt] at hj3
    cases h1 : stripCi (str "src=") (rest0.drop j) with
    | none =>
      rw [h1] at hj3
      exact absurd hj3 (by simp)
    | some u =>
      rw [h1] at hj3
      cases u with
      | nil => exact absurd hj3 (by simp)
      | cons q v =>
        dsimp only at hj3
        by_cases hq : isQuote q = true
        · rw [if_pos hq] at hj3
          cases h2 : stripCi ref v with
          | none =>
            rw [h2] at hj3
            exact absurd hj3 (by simp)
          | some w =>
            rw [h2] at hj3
            cases w with
            | nil => exact absurd hj3 (by simp)
            | cons q2' rest' =>
              dsimp only at hj3
              by_cases hq2 : isQuote q2' = true
              · rw [if_pos hq2] at hj3
                simp only [Option.some.injEq, Prod.mk.injEq] at hj3
                obtain ⟨hpre, hq2e, hreste⟩ := hj3
                subst hq2e
                subst hreste
                refine ⟨hq2, ?_⟩
                obtain ⟨m0, hm0t, hm0ci⟩ := stripCi_some.mp hs
                obtain ⟨m1, hm1, hm1ci⟩ := stripCi_some.mp h1
                obtain ⟨mm, hmm, hmmci⟩ := stripCi_some.mp h2
                refine ⟨mm, hmmci, ?_⟩
                have hjlen : j ≤ rest0.length :=
                  le_trans hj2 ((rest0.takeWhile_sublist _).length_le)
                have hA : t = (m0 ++ rest0.take j ++ m1 ++ [q]) ++ (mm ++ q2' :: rest') := by
                  rw [hm0t]
                  conv_lhs => rw [← List.take_append_drop j rest0]
                  rw [hm1, hmm]
                  simp
                have e0 : m0.length = 4 := by
                  have := ciEqL_length hm0ci
                  simpa using this.symm
                have e1 : m1.length = 4 := by
                  have := ciEqL_length hm1ci
                  simpa using this.symm
                have hlen : (m0 ++ rest0.take j ++ m1 ++ [q]).length = j + 9 := by
                  simp [e0, e1, List.length_take, Nat.min_eq_left hjlen]
                  omega
                have hpreA : pre = m0 ++ rest0.take j ++ m1 ++ [q] := by
                  rw [← hpre, hA, List.take_left' hlen]
                rw [hpreA]
                exact hA
              · rw [if_neg hq2] at hj3
                exact absurd hj3 (by simp)
        · rw [if_neg hq] at hj3
          exact absurd hj3 (by simp)

theorem tryImgSub_rest_length {ref t pre : Chars} {q2 : Char} {rest : Chars}
    (h : tryImgSub ref t = some (pre, q2, rest)) : rest.length < t.length := by
  obtain ⟨-, mm, -, heq⟩ := tryImgSub_decomp h
  rw [heq]
  simp
  omega

theorem subImgAux_fuel (ref url : Chars) :
    ∀ f1 : Nat, ∀ f2 : Nat, ∀ s : Chars, s.length ≤ f1 → s.length ≤ f2 →
      subImgAux ref url f1 s = subImgAux ref url f2 s := by
  intro f1
  induction f1 with
  | zero =>
    intro f2 s h1 _
    have hs : s = [] := List.length_eq_zero.mp (by omega)
    subst hs
    cases f2 with
    | zero => rfl
    | succ g => rfl
  | succ g1 ih =>
    intro f2 s h1 h2
    cases s with
    | nil =>
      cases f2 with
      | zero => rfl
      | succ g2 => rfl
    | cons c cs =>
      cases f2 with
      | zero => simp at h2
      | succ g2 =>
        rw [subImgAux, subImgAux]
        cases h : tryImgSub ref (c :: cs) with
        | some p =>
          obtain ⟨pre, q2, rest⟩ := p
          have hlen := tryImgSub_rest_length h
          simp only [List.length_cons] at h1 h2 hlen
          dsimp only
          rw [ih g2 rest (by omega) (by omega)]
        | none =>
          simp only [List.length_cons] at h1 h2
          dsimp only
          rw [ih g2 cs (by omega) (by omega)]

theorem subImg_eq (ref url s : Chars) :
    subImg ref url s =
      match tryImgSub ref s with
      | some (pre, q2, rest) => pre ++ url ++ q2 :: subImg ref url rest
      | none =>
        match s with
        | [] => []
        | c :: cs => c :: subImg ref url cs := by
  cases s with
  | nil => rfl
  | cons c cs =>
    show subImgAux ref url (cs.length + 1) (c :: cs) = _
    rw [subImgAux]
    cases h : tryImgSub ref (c :: cs) with
    | some p =>
      obtain ⟨pre, q2, rest⟩ := p
      have hlen := tryImgSub_rest_length h
      simp only [List.length_cons] at hlen
      dsimp only
      rw [subImgAux_fuel ref url cs.length rest.length rest (by omega) (le_refl _)]
      rfl
    | none => rfl

/-- C2 counterexample: with `a.png` mapped (valid) and `A.PNG` extracted but
absent from the rewrite map (its file does not exist), the occurrence of
`A.PNG` in the `<img>` tag is nevertheless rewritten, because the
HTML-substitution regex is compiled with `re.IGNORECASE`: a reference absent
from the rewrite map is not left untouched in the output text. -/
theorem c2_counterexample :
    str "A.PNG" ∈ find_local_image_refs (str "![x](a.png) <img src=\"A.PNG\">") ∧
      str "A.PNG" ∉ ([(str "a.png", str "_a.png")].map Prod.fst) ∧
      containsSub (str "A.PNG") (str "![x](a.png) <img src=\"A.PNG\">") = true ∧
      containsSub (str "A.PNG")
        (rewriteAll [(str "a.png", str "_a.png")] (str "o") (str "i")
          (str "![x](a.png) <img src=\"A.PNG\">")) = false := by
  refine ⟨by decide, by decide, by decide, by decide⟩

/-- C2 (amended): the raw URL substituted for a mapped reference with
sanitized name `v` is exactly
`https://gist.githubusercontent.com/<owner>/<gist-id>/raw/` followed by the
percent-encoding of `v`; for a reference containing neither `!` nor `)`
(and owner/id without those characters), the markdown pass replaces every
occurrence of the reference as a markdown image target — none survives in
the rewritten text; and every match of the (case-insensitive) HTML pass
replaces text case-insensitively equal to the reference between preserved
quotes with exactly the raw URL. -/
theorem c2_rewrite_correct (owner id ref v content : Chars)
    (h1 : '!' ∉ ref) (h2 : ')' ∉ ref) (h3 : startsWithHttp ref = false)
    (h4 : '!' ∉ owner) (h5 : ')' ∉ owner) (h6 : '!' ∉ id) (h7 : ')' ∉ id) :
    buildRawUrl owner id v =
      str "https://gist.githubusercontent.com/" ++ owner ++ '/' :: id ++ str "/raw/" ++
        quoteChars v ∧
      ¬ MdOcc ref (subMd ref (buildRawUrl owner id v) content) ∧
      ∀ t pre : Chars, ∀ q2 : Char, ∀ rest : Chars, tryImgSub ref t = some (pre, q2, rest) →
        isQuote q2 = true ∧
          (∃ mm, ciEqL ref mm = true ∧ t = pre ++ (mm ++ q2 :: rest)) ∧
          subImg ref (buildRawUrl owner id v) t =
            pre ++ buildRawUrl owner id v ++ q2 :: subImg ref (buildRawUrl owner id v) rest := by
  refine ⟨rfl, ?_, ?_⟩
  · exact subMd_no_occ h1 h2 (bang_not_mem_url h4 h6) (paren_not_mem_url h5 h7)
      (ref_ne_url h3) content
  · intro t pre q2 rest h
    obtain ⟨hq, mm, hci, heq⟩ := tryImgSub_decomp h
    refine ⟨hq, ⟨mm, hci, heq⟩, ?_⟩
    rw [subImg_eq ref (buildRawUrl owner id v) t, h]

/-- Witness for C2 at a concrete rewrite: no markdown occurrence of `a.png`
survives in the rewritten text. -/
theorem c2_witness :
    ¬ MdOcc (str "a.png")
      (subMd (str "a.png") (buildRawUrl (str "o") (str "i") (str "_a.png"))
        (str "![x](a.png)")) :=
  (c2_rewrite_correct (str "o") (str "i") (str "a.png") (str "_a.png") (str "![x](a.png)")
    (by decide) (by decide) (by decide) (by decide) (by decide) (by decide) (by decide)).2.1

end PublishGist
